import Mathlib

/-!
Verification of the citation-annotated content engine of the Company One
Pager frontend (`src/ui/frontend/public/app.js`, with the sibling variant
`src/frontend/public/app.js`).  The development shallowly embeds:

* `processCitationTags` — the citation marker parser, a global regex
  replace of `[[Src:<digits>]]` with numbered placeholder spans;
* `renderMarkdown` — the sequential regex-rewriting markdown renderer
  (headers, bold, italic, bullet lists, `<ul>` wrapping, numbered lists,
  tables, paragraphs);
* the tooltip controller handlers (`showTooltip`, `startHideTimer`,
  `cancelHideTimer`, `pinTooltip`, `hideTooltip`) together with the
  browser timer queue, as a state machine over handler events;
* `positionTooltipNear` — the viewport positioner.

Strings are modelled by their underlying character lists; JavaScript's
left-to-right non-overlapping global regex replace is modelled by
scanners that at each position attempt the match the regex engine would
attempt there.
-/

namespace CitationUI

/-- Association-list lookup, modelling JavaScript object property access
`obj[key]` for objects used as string-keyed maps. -/
def assocFind {α : Type} : List (String × α) → String → Option α
  | [], _ => none
  | (k, v) :: rest, s => if k = s then some v else assocFind rest s

/-- A source excerpt record:
`{ title, page_number, raw_text }`, each field nullable (spec §3). -/
structure Source : Type where
  title : Option String
  page_number : Option String
  raw_text : Option String
deriving DecidableEq

/-- Index of the first occurrence of `s` in `l` (length of `l` if absent). -/
def idxIn : List String → String → Nat
  | [], _ => 0
  | x :: rest, s => if x = s then 0 else idxIn rest s + 1

/-- First-seen-order deduplication relative to an already-seen list:
`fsFrom seen l` lists the members of `l` not in `seen`, in the order of
their first occurrence. -/
def fsFrom (seen : List String) : List String → List String
  | [] => []
  | s :: rest => if s ∈ seen then fsFrom seen rest else s :: fsFrom (seen ++ [s]) rest

/-- The distinct elements of `l` in first-seen order. -/
def firstSeen (l : List String) : List String := fsFrom [] l

/-! ### Marker parser (`processCitationTags`)

The JS source (ui variant, `app.js` lines 448–463):

```
function processCitationTags(content, sources, sectionKey) {
    let citationNumber = 1;
    const citationMap = {};
    return content.replace(/\[\[Src:(\d+)\]\]/g, (match, srcNum) => {
        const sourceId = `src_` + srcNum;
        if (!citationMap[sourceId]) {
            citationMap[sourceId] = citationNumber++;
        }
        const displayNum = citationMap[sourceId];
        return `<span class="citation" data-source-id="..." data-section="..." data-num="...">displayNum</span>`;
    });
}
```
-/

/-- Maximal leading digit run, as consumed by the greedy `\d+`. -/
def takeDigits : List Char → List Char × List Char
  | [] => ([], [])
  | c :: cs =>
    if c.isDigit then
      let (d, r) := takeDigits cs
      (c :: d, r)
    else ([], c :: cs)

theorem takeDigits_length_eq (cs : List Char) :
    (takeDigits cs).1.length + (takeDigits cs).2.length = cs.length := by
  induction cs with
  | nil => simp [takeDigits]
  | cons c cs ih =>
    simp only [takeDigits]
    split
    · simp only [List.length_cons]
      omega
    · simp

theorem takeDigits_append_eq (d rest : List Char) (hd : ∀ c ∈ d, c.isDigit = true)
    (hr : ∀ c r, rest = c :: r → c.isDigit = false) :
    takeDigits (d ++ rest) = (d, rest) := by
  induction d with
  | nil =>
    cases rest with
    | nil => simp [takeDigits]
    | cons c r => simp [takeDigits, hr c r rfl]
  | cons c d ih =>
    have hc : c.isDigit = true := hd c (by simp)
    have ih2 := ih (fun x hx => hd x (by simp [hx]))
    simp only [List.cons_append, takeDigits, hc, if_true, List.append_eq, ih2]

/-- Attempt, at the current position, the match the regex
`\[\[Src:(\d+)\]\]` would make there: the literal `[[Src:`, one or more
digits (greedy), then `]]`.  Returns the captured digits and the
remainder after the match. -/
def matchMarker : List Char → Option (List Char × List Char)
  | '[' :: '[' :: 'S' :: 'r' :: 'c' :: ':' :: rest =>
    let (d, r) := takeDigits rest
    if d = [] then none
    else
      match r with
      | ']' :: ']' :: r2 => some (d, r2)
      | _ => none
  | _ => none

theorem matchMarker_some_length {cs d rest : List Char}
    (h : matchMarker cs = some (d, rest)) : rest.length + 9 ≤ cs.length := by
  unfold matchMarker at h
  split at h
  · rename_i rest0
    dsimp only at h
    split at h
    · exact absurd h (by simp)
    · rename_i hne
      split at h
      · rename_i r2 heq
        injection h with h1
        injection h1 with hd hr
        subst hr
        have h2 := takeDigits_length_eq rest0
        rw [heq] at h2
        have hpos : 0 < (takeDigits rest0).1.length := List.length_pos.mpr hne
        simp only [List.length_cons] at h2 ⊢
        omega
      · exact absurd h (by simp)
  · exact absurd h (by simp)

theorem matchMarker_none_of_head {c : Char} {cs : List Char} (h : c ≠ '[') :
    matchMarker (c :: cs) = none := by
  unfold matchMarker
  split
  · rename_i heq
    injection heq with h1 _
    exact absurd h1 h
  · rfl

/-- One token of the scanned text: a literal character that the regex
passed through unchanged, or a well-formed marker with its digits. -/
inductive CTok : Type
  | lit (c : Char)
  | marker (digits : String)
deriving DecidableEq

/-- Fuelled scanner body for `tokenize` (the fuel, always at least the
input length at call sites, makes the recursion structural). -/
def tokenizeGo : Nat → List Char → List CTok
  | 0, _ => []
  | _ + 1, [] => []
  | fuel + 1, c :: cs =>
    match matchMarker (c :: cs) with
    | some (d, rest) => CTok.marker (String.mk d) :: tokenizeGo fuel rest
    | none => CTok.lit c :: tokenizeGo fuel cs

/-- Tokenize the input exactly as the global replace scans it: at each
position try the marker match; on success consume it, otherwise pass the
character through. -/
def tokenize (cs : List Char) : List CTok := tokenizeGo cs.length cs

theorem tokenizeGo_congr (n : Nat) :
    ∀ (m : Nat) (cs : List Char), cs.length ≤ n → cs.length ≤ m →
      tokenizeGo n cs = tokenizeGo m cs := by
  induction n with
  | zero =>
    intro m cs hn _
    have hcs : cs = [] := List.length_eq_zero.mp (Nat.le_zero.mp hn)
    subst hcs
    cases m <;> rfl
  | succ n ih =>
    intro m cs hn hm
    cases cs with
    | nil => cases m <;> rfl
    | cons c rest =>
      cases m with
      | zero => simp at hm
      | succ m =>
        simp only [tokenizeGo]
        cases h : matchMarker (c :: rest) with
        | some p =>
          obtain ⟨d, r⟩ := p
          dsimp only
          have hlen := matchMarker_some_length h
          simp only [List.length_cons] at hlen hn hm
          rw [ih m r (by omega) (by omega)]
        | none =>
          dsimp only
          simp only [List.length_cons] at hn hm
          rw [ih m rest (by omega) (by omega)]

theorem tokenizeGo_spec (n : Nat) (cs : List Char) (h : cs.length ≤ n) :
    tokenizeGo n cs = tokenize cs :=
  tokenizeGo_congr n cs.length cs h (Nat.le_refl _)

theorem tokenize_nil : tokenize [] = [] := rfl

theorem tokenize_cons_marker {c : Char} {cs d rest : List Char}
    (h : matchMarker (c :: cs) = some (d, rest)) :
    tokenize (c :: cs) = CTok.marker (String.mk d) :: tokenize rest := by
  have hlen := matchMarker_some_length h
  simp only [List.length_cons] at hlen
  show tokenizeGo (c :: cs).length (c :: cs) = _
  rw [List.length_cons, tokenizeGo, h]
  dsimp only
  rw [tokenizeGo_spec cs.length rest (by omega)]

theorem tokenize_cons_lit {c : Char} {cs : List Char}
    (h : matchMarker (c :: cs) = none) :
    tokenize (c :: cs) = CTok.lit c :: tokenize cs := by
  show tokenizeGo (c :: cs).length (c :: cs) = _
  rw [List.length_cons, tokenizeGo, h]
  dsimp only
  rw [tokenizeGo_spec cs.length cs (Nat.le_refl _)]

/-- The normalized source identifiers of the markers, in document order
(`src_` prefixed digits, as built by the replace callback). -/
def tokIds : List CTok → List String
  | [] => []
  | CTok.lit _ :: rest => tokIds rest
  | CTok.marker d :: rest => ("src_" ++ d) :: tokIds rest

/-- Numbering state of one `processCitationTags` call: the JS locals
`citationNumber` (next unused display number) and `citationMap`
(insertion-ordered `sourceId → displayNumber`). -/
structure CiteState : Type where
  citationNumber : Nat
  citationMap : List (String × Nat)
deriving DecidableEq

/-- The callback's numbering step:
`if (!citationMap[sourceId]) citationMap[sourceId] = citationNumber++;
 const displayNum = citationMap[sourceId];` -/
def citeNumber (st : CiteState) (sourceId : String) : CiteState × Nat :=
  match assocFind st.citationMap sourceId with
  | some n => (st, n)
  | none =>
    ({ citationNumber := st.citationNumber + 1
       citationMap := st.citationMap ++ [(sourceId, st.citationNumber)] },
     st.citationNumber)

/-- The replacement span emitted for one marker (the callback's template
literal). -/
def spanFor (sourceId sectionKey : String) (displayNum : Nat) : String :=
  "<span class=\"citation\" data-source-id=\"" ++ sourceId ++
  "\" data-section=\"" ++ sectionKey ++ "\" data-num=\"" ++ toString displayNum ++
  "\">" ++ toString displayNum ++ "</span>"

/-- Output text for one token. -/
def renderTok (sectionKey : String) (st : CiteState) : CTok → CiteState × String
  | CTok.lit c => (st, String.mk [c])
  | CTok.marker d =>
    let sourceId := "src_" ++ d
    let (st2, displayNum) := citeNumber st sourceId
    (st2, spanFor sourceId sectionKey displayNum)

/-- Fold the replace over the token list, threading the numbering state
and concatenating the output. -/
def processToks (sectionKey : String) : List CTok → CiteState → CiteState × String
  | [], st => (st, "")
  | t :: rest, st =>
    let (st1, s1) := renderTok sectionKey st t
    let (st2, s2) := processToks sectionKey rest st1
    (st2, s1 ++ s2)

/-- Initial numbering state of each call (`citationNumber = 1`, empty map). -/
def initCiteState : CiteState := { citationNumber := 1, citationMap := [] }

/-- Full run of one `processCitationTags` call: final state and output. -/
def parseCitations (content : String) (sectionKey : String) : CiteState × String :=
  processToks sectionKey (tokenize content.data) initCiteState

/-- `processCitationTags(content, sources, sectionKey)` — the rewritten
text.  The `sources` argument is accepted (as in the JS signature) but
unused by the function body. -/
def processCitationTags (content : String) (sources : List (String × Source))
    (sectionKey : String) : String :=
  (parseCitations content sectionKey).2

/-- The numbering table (`citationMap`) produced by one call, in
insertion order. -/
def citeTable (content : String) : List (String × Nat) :=
  (parseCitations content "").1.citationMap

/-- The source identifiers referenced by the markers of `content`, in
document order. -/
def markerIds (content : String) : List String := tokIds (tokenize content.data)

/-- The display numbers actually emitted for the markers, in document
order, extracted from the same numbering fold. -/
def emitNums : List CTok → CiteState → List Nat
  | [], _ => []
  | CTok.lit _ :: rest, st => emitNums rest st
  | CTok.marker d :: rest, st =>
    let (st2, n) := citeNumber st ("src_" ++ d)
    n :: emitNums rest st2

/-- Per-marker display numbers of one call on `content`. -/
def displayNums (content : String) : List Nat :=
  emitNums (tokenize content.data) initCiteState

/-! ### Numbering lemmas -/

/-- State evolution of the numbering fold at the level of source ids. -/
def applyIds : List String → CiteState → CiteState
  | [], st => st
  | s :: rest, st => applyIds rest (citeNumber st s).1

/-- Emitted display numbers at the level of source ids. -/
def emitIds : List String → CiteState → List Nat
  | [], _ => []
  | s :: rest, st => (citeNumber st s).2 :: emitIds rest (citeNumber st s).1

theorem processToks_fst (key : String) (toks : List CTok) (st : CiteState) :
    (processToks key toks st).1 = applyIds (tokIds toks) st := by
  induction toks generalizing st with
  | nil => rfl
  | cons t rest ih =>
    cases t with
    | lit c => simpa [processToks, renderTok, tokIds] using ih st
    | marker d => simpa [processToks, renderTok, tokIds, applyIds] using ih _

theorem emitNums_eq_emitIds (toks : List CTok) (st : CiteState) :
    emitNums toks st = emitIds (tokIds toks) st := by
  induction toks generalizing st with
  | nil => rfl
  | cons t rest ih =>
    cases t with
    | lit c => simpa [emitNums, tokIds] using ih st
    | marker d => simpa [emitNums, tokIds, emitIds] using ih _

theorem assocFind_eq_none_iff (tbl : List (String × Nat)) (s : String) :
    assocFind tbl s = none ↔ s ∉ tbl.map Prod.fst := by
  induction tbl with
  | nil => simp [assocFind]
  | cons p rest ih =>
    obtain ⟨k, v⟩ := p
    by_cases hk : k = s
    · subst hk
      simp [assocFind]
    · simp [assocFind, hk, ih, Ne.symm hk]

theorem assocFind_zip_range' (fs : List String) (m : Nat) (s : String)
    (hn : fs.Nodup) (hm : s ∈ fs) :
    assocFind (fs.zip (List.range' m fs.length)) s = some (m + idxIn fs s) := by
  induction fs generalizing m with
  | nil => cases hm
  | cons x fs ih =>
    rw [List.length_cons, List.range'_succ, List.zip_cons_cons]
    by_cases hx : x = s
    · subst hx
      simp [assocFind, idxIn]
    · have hm2 : s ∈ fs := by
        cases hm with
        | head => exact absurd rfl hx
        | tail _ h => exact h
      have hn2 : fs.Nodup := hn.of_cons
      rw [show assocFind ((x, m) :: fs.zip (List.range' (m + 1) fs.length)) s
            = assocFind (fs.zip (List.range' (m + 1) fs.length)) s by simp [assocFind, hx]]
      rw [ih (m + 1) hn2 hm2]
      simp [idxIn, hx]
      omega

theorem assocFind_zip_range'_not_mem (fs : List String) (m : Nat) (s : String)
    (hm : s ∉ fs) :
    assocFind (fs.zip (List.range' m fs.length)) s = none := by
  rw [assocFind_eq_none_iff]
  rw [List.map_fst_zip fs _ (by simp)]
  exact hm

theorem idxIn_append_of_mem (l1 l2 : List String) (s : String) (h : s ∈ l1) :
    idxIn (l1 ++ l2) s = idxIn l1 s := by
  induction l1 with
  | nil => cases h
  | cons x l1 ih =>
    by_cases hx : x = s
    · simp [idxIn, hx]
    · have h2 : s ∈ l1 := by
        cases h with
        | head => exact absurd rfl hx
        | tail _ h => exact h
      simp [idxIn, hx, ih h2]

theorem idxIn_append_self (l1 l2 : List String) (s : String) (h : s ∉ l1) :
    idxIn (l1 ++ s :: l2) s = l1.length := by
  induction l1 with
  | nil => simp [idxIn]
  | cons x l1 ih =>
    have hx : x ≠ s := fun he => h (he ▸ List.mem_cons_self x l1)
    have h2 : s ∉ l1 := fun hm => h (List.mem_cons_of_mem x hm)
    simp [idxIn, hx, ih h2]

theorem fsFrom_mem (ids : List String) (seen : List String) (s : String) :
    s ∈ fsFrom seen ids ↔ s ∈ ids ∧ s ∉ seen := by
  induction ids generalizing seen with
  | nil => simp [fsFrom]
  | cons x ids ih =>
    by_cases hx : x ∈ seen
    · rw [fsFrom, if_pos hx, ih]
      constructor
      · rintro ⟨h1, h2⟩
        exact ⟨List.mem_cons_of_mem x h1, h2⟩
      · rintro ⟨h1, h2⟩
        refine ⟨?_, h2⟩
        cases h1 with
        | head => exact absurd hx h2
        | tail _ h => exact h
    · rw [fsFrom, if_neg hx, List.mem_cons, ih]
      constructor
      · rintro (h | ⟨h1, h2⟩)
        · rw [h]
          exact ⟨List.mem_cons_self x ids, hx⟩
        · exact ⟨List.mem_cons_of_mem x h1, fun hm => h2 (by simp [hm])⟩
      · rintro ⟨h1, h2⟩
        by_cases hxs : s = x
        · exact Or.inl hxs
        · refine Or.inr ⟨?_, ?_⟩
          · cases h1 with
            | head => exact absurd rfl hxs
            | tail _ h => exact h
          · simp only [List.mem_append, List.mem_singleton]
            rintro (h | h)
            · exact h2 h
            · exact hxs h

theorem fsFrom_nodup (ids : List String) (seen : List String) (hn : seen.Nodup) :
    (seen ++ fsFrom seen ids).Nodup := by
  induction ids generalizing seen with
  | nil => simpa [fsFrom]
  | cons x ids ih =>
    by_cases hx : x ∈ seen
    · rw [fsFrom, if_pos hx]
      exact ih seen hn
    · rw [fsFrom, if_neg hx,
        show seen ++ x :: fsFrom (seen ++ [x]) ids
          = (seen ++ [x]) ++ fsFrom (seen ++ [x]) ids by simp]
      refine ih (seen ++ [x]) ?_
      simp [List.nodup_append, hn, hx]

/-- Invariant of the numbering fold: starting from a table that numbers
the distinct ids `fs0` as `1..|fs0|`, processing `ids` appends the new
first-seen ids with the next consecutive numbers. -/
theorem applyIds_invariant (ids : List String) (fs0 : List String) (hn : fs0.Nodup) :
    (applyIds ids ⟨fs0.length + 1, fs0.zip (List.range' 1 fs0.length)⟩).citationMap
      = (fs0 ++ fsFrom fs0 ids).zip (List.range' 1 (fs0 ++ fsFrom fs0 ids).length)
    ∧ (applyIds ids ⟨fs0.length + 1, fs0.zip (List.range' 1 fs0.length)⟩).citationNumber
      = (fs0 ++ fsFrom fs0 ids).length + 1 := by
  induction ids generalizing fs0 with
  | nil => simp [applyIds, fsFrom]
  | cons s ids ih =>
    by_cases hs : s ∈ fs0
    · have hfind := assocFind_zip_range' fs0 1 s hn hs
      rw [fsFrom, if_pos hs]
      have hstep : (citeNumber ⟨fs0.length + 1, fs0.zip (List.range' 1 fs0.length)⟩ s).1
          = ⟨fs0.length + 1, fs0.zip (List.range' 1 fs0.length)⟩ := by
        simp [citeNumber, hfind]
      rw [applyIds, hstep]
      exact ih fs0 hn
    · have hfind := assocFind_zip_range'_not_mem fs0 1 s hs
      rw [fsFrom, if_neg hs]
      have hstep : (citeNumber ⟨fs0.length + 1, fs0.zip (List.range' 1 fs0.length)⟩ s).1
          = ⟨(fs0 ++ [s]).length + 1, (fs0 ++ [s]).zip (List.range' 1 (fs0 ++ [s]).length)⟩ := by
        simp only [citeNumber, hfind]
        refine congrArg₂ CiteState.mk (by simp) ?_
        rw [List.length_append, List.length_singleton, List.range'_1_concat,
          List.zip_append (by simp)]
        simp [Nat.add_comm]
      rw [applyIds, hstep]
      have hn2 : (fs0 ++ [s]).Nodup := by simp [List.nodup_append, hn, hs]
      have hassoc : fs0 ++ s :: fsFrom (fs0 ++ [s]) ids
          = (fs0 ++ [s]) ++ fsFrom (fs0 ++ [s]) ids := by simp
      rw [hassoc]
      exact ih (fs0 ++ [s]) hn2

/-- Emitted display numbers: each marker's number is the 1-based index of
its source id in the final first-seen order. -/
theorem emitIds_invariant (ids : List String) (fs0 : List String) (hn : fs0.Nodup) :
    emitIds ids ⟨fs0.length + 1, fs0.zip (List.range' 1 fs0.length)⟩
      = ids.map (fun s => idxIn (fs0 ++ fsFrom fs0 ids) s + 1) := by
  induction ids generalizing fs0 with
  | nil => rfl
  | cons s ids ih =>
    by_cases hs : s ∈ fs0
    · have hfind := assocFind_zip_range' fs0 1 s hn hs
      have hstep1 : (citeNumber ⟨fs0.length + 1, fs0.zip (List.range' 1 fs0.length)⟩ s).1
          = ⟨fs0.length + 1, fs0.zip (List.range' 1 fs0.length)⟩ := by
        simp [citeNumber, hfind]
      have hstep2 : (citeNumber ⟨fs0.length + 1, fs0.zip (List.range' 1 fs0.length)⟩ s).2
          = 1 + idxIn fs0 s := by
        simp [citeNumber, hfind]
      rw [emitIds, hstep1, hstep2, ih fs0 hn, fsFrom, if_pos hs, List.map_cons,
        idxIn_append_of_mem _ _ _ hs]
      refine congrArg₂ List.cons (by omega) rfl
    · have hfind := assocFind_zip_range'_not_mem fs0 1 s hs
      have hstep1 : (citeNumber ⟨fs0.length + 1, fs0.zip (List.range' 1 fs0.length)⟩ s).1
          = ⟨(fs0 ++ [s]).length + 1, (fs0 ++ [s]).zip (List.range' 1 (fs0 ++ [s]).length)⟩ := by
        simp only [citeNumber, hfind]
        refine congrArg₂ CiteState.mk (by simp) ?_
        rw [List.length_append, List.length_singleton, List.range'_1_concat,
          List.zip_append (by simp)]
        simp [Nat.add_comm]
      have hstep2 : (citeNumber ⟨fs0.length + 1, fs0.zip (List.range' 1 fs0.length)⟩ s).2
          = fs0.length + 1 := by
        simp [citeNumber, hfind]
      have hn2 : (fs0 ++ [s]).Nodup := by simp [List.nodup_append, hn, hs]
      rw [emitIds, hstep1, hstep2, ih (fs0 ++ [s]) hn2, fsFrom, if_neg hs, List.map_cons]
      have hnotmem : s ∉ fs0 := hs
      have hhead : idxIn (fs0 ++ s :: fsFrom (fs0 ++ [s]) ids) s + 1 = fs0.length + 1 := by
        rw [idxIn_append_self _ _ _ hnotmem]
      rw [hhead]
      refine congrArg₂ List.cons rfl ?_
      refine List.map_congr_left fun x _ => ?_
      rw [show fs0 ++ s :: fsFrom (fs0 ++ [s]) ids
          = (fs0 ++ [s]) ++ fsFrom (fs0 ++ [s]) ids by simp]

theorem citeTable_eq (text : String) :
    citeTable text
      = (firstSeen (markerIds text)).zip (List.range' 1 (firstSeen (markerIds text)).length) := by
  have h0 : initCiteState
      = ⟨([] : List String).length + 1, ([] : List String).zip (List.range' 1 0)⟩ := rfl
  have h := (applyIds_invariant (markerIds text) [] List.nodup_nil).1
  simp only [List.nil_append] at h
  rw [citeTable, parseCitations, processToks_fst, ← markerIds, h0]
  exact h

theorem displayNums_eq (text : String) :
    displayNums text
      = (markerIds text).map (fun s => idxIn (firstSeen (markerIds text)) s + 1) := by
  have h := emitIds_invariant (markerIds text) [] List.nodup_nil
  simp only [List.nil_append] at h
  rw [displayNums, emitNums_eq_emitIds, ← markerIds,
    show initCiteState
      = ⟨([] : List String).length + 1, ([] : List String).zip (List.range' 1 0)⟩ from rfl]
  exact h

/-! ### Markdown renderer (`renderMarkdown`)

The JS source (ui variant, `app.js` lines 465–518) applies, in order:
`^### `, `^## `, `^# ` headings (multiline), `\*\*(.+?)\*\*` bold,
`\*(.+?)\*` italic, `^\* (.+)$` bullet items, `(<li>.*<\/li>\n?)+`
wrapped into `<ul>…</ul>`, `^\d+\. (.+)$` numbered items, a table regex
`\|(.+)\|\n\|[-: |]+\|\n((?:\|.+\|\n?)+)`, and finally a `\n\n`
paragraph split with a known-block-prefix check. -/

/-- Does `pat` occur as a prefix of `cs`? -/
def startsWithL : List Char → List Char → Bool
  | [], _ => true
  | _ :: _, [] => false
  | p :: ps, c :: cs => p = c && startsWithL ps cs

theorem startsWithL_length {pat cs : List Char} (h : startsWithL pat cs = true) :
    pat.length ≤ cs.length := by
  induction pat generalizing cs with
  | nil => simp
  | cons p ps ih =>
    cases cs with
    | nil => simp [startsWithL] at h
    | cons c cs =>
      simp only [startsWithL, Bool.and_eq_true] at h
      simpa using ih h.2

/-- Split `cs` at the first occurrence of `pat`: prefix before the
occurrence and suffix after it. -/
def splitFirstPat (pat : List Char) : List Char → Option (List Char × List Char)
  | [] => none
  | c :: rest =>
    if startsWithL pat (c :: rest) then some ([], (c :: rest).drop pat.length)
    else
      match splitFirstPat pat rest with
      | some (pre, post) => some (c :: pre, post)
      | none => none

theorem splitFirstPat_length {pat cs pre post : List Char}
    (h : splitFirstPat pat cs = some (pre, post)) :
    pre.length + pat.length + post.length = cs.length := by
  induction cs generalizing pre with
  | nil => simp [splitFirstPat] at h
  | cons c rest ih =>
    rw [splitFirstPat] at h
    split at h
    · rename_i hpre
      injection h with h1
      injection h1 with h2 h3
      subst h2
      subst h3
      have hle := startsWithL_length hpre
      simp only [List.length_cons] at hle ⊢
      rw [List.length_drop]
      simp only [List.length_nil, List.length_cons]
      omega
    · split at h
      · rename_i pre0 post0 heq
        injection h with h1
        injection h1 with h2 h3
        subst h2
        subst h3
        have := ih heq
        simp only [List.length_cons]
        omega
      · exact absurd h (by simp)

/-- Fuelled body for `splitLastPat`. -/
def splitLastPatGo (p : Char) (ps : List Char) : Nat → List Char → Option (List Char × List Char)
  | 0, _ => none
  | fuel + 1, cs =>
    match splitFirstPat (p :: ps) cs with
    | none => none
    | some (pre, post) =>
      match splitLastPatGo p ps fuel post with
      | some (pre2, post2) => some (pre ++ (p :: ps) ++ pre2, post2)
      | none => some (pre, post)

/-- Split `cs` at the last occurrence of the (nonempty) pattern
`p :: ps`. -/
def splitLastPat (p : Char) (ps : List Char) (cs : List Char) :
    Option (List Char × List Char) :=
  splitLastPatGo p ps cs.length cs

theorem splitFirstPat_nil (pat : List Char) : splitFirstPat pat [] = none := rfl

theorem splitLastPatGo_congr (p : Char) (ps : List Char) (n : Nat) :
    ∀ (m : Nat) (cs : List Char), cs.length ≤ n → cs.length ≤ m →
      splitLastPatGo p ps n cs = splitLastPatGo p ps m cs := by
  induction n with
  | zero =>
    intro m cs hn _
    have hcs : cs = [] := List.length_eq_zero.mp (Nat.le_zero.mp hn)
    subst hcs
    cases m with
    | zero => rfl
    | succ m => simp [splitLastPatGo, splitFirstPat_nil]
  | succ n ih =>
    intro m cs hn hm
    cases hfst : splitFirstPat (p :: ps) cs with
    | none =>
      cases m with
      | zero =>
        have hcs : cs = [] := List.length_eq_zero.mp (Nat.le_zero.mp hm)
        subst hcs
        simp [splitLastPatGo, splitFirstPat_nil]
      | succ m => simp [splitLastPatGo, hfst]
    | some pr =>
      obtain ⟨pre, post⟩ := pr
      have hlen := splitFirstPat_length hfst
      simp only [List.length_cons] at hlen
      cases m with
      | zero =>
        have hcs : cs = [] := List.length_eq_zero.mp (Nat.le_zero.mp hm)
        subst hcs
        rw [splitFirstPat_nil] at hfst
        cases hfst
      | succ m =>
        simp only [splitLastPatGo, hfst]
        rw [ih m post (by omega) (by omega)]

theorem splitLastPatGo_spec (p : Char) (ps : List Char) (n : Nat) (cs : List Char)
    (h : cs.length ≤ n) : splitLastPatGo p ps n cs = splitLastPat p ps cs :=
  splitLastPatGo_congr p ps n cs.length cs h (Nat.le_refl _)

theorem splitLastPat_eq_none {p : Char} {ps cs : List Char}
    (h : splitFirstPat (p :: ps) cs = none) : splitLastPat p ps cs = none := by
  cases cs with
  | nil => rfl
  | cons c rest =>
    show splitLastPatGo p ps (c :: rest).length (c :: rest) = none
    rw [List.length_cons, splitLastPatGo, h]

theorem splitLastPat_eq_some {p : Char} {ps cs pre post : List Char}
    (h : splitFirstPat (p :: ps) cs = some (pre, post)) :
    splitLastPat p ps cs
      = match splitLastPat p ps post with
        | some (pre2, post2) => some (pre ++ (p :: ps) ++ pre2, post2)
        | none => some (pre, post) := by
  cases cs with
  | nil => rw [splitFirstPat_nil] at h; cases h
  | cons c rest =>
    have hlen := splitFirstPat_length h
    simp only [List.length_cons] at hlen
    show splitLastPatGo p ps (c :: rest).length (c :: rest) = _
    rw [List.length_cons, splitLastPatGo, h]
    dsimp only
    rw [splitLastPatGo_spec p ps rest.length post (by omega)]

theorem splitLastPatGo_length (fuel : Nat) :
    ∀ {p : Char} {ps cs pre post : List Char},
      splitLastPatGo p ps fuel cs = some (pre, post) →
      pre.length + (p :: ps).length + post.length = cs.length := by
  induction fuel with
  | zero =>
    intro p ps cs pre post h
    cases h
  | succ fuel ih =>
    intro p ps cs pre post h
    rw [splitLastPatGo] at h
    split at h
    · exact absurd h (by simp)
    · rename_i pre0 post0 heq
      have hfst := splitFirstPat_length heq
      split at h
      · rename_i pre2 post2 heq2
        have hrec := ih heq2
        injection h with h1
        injection h1 with h2 h3
        subst h2
        subst h3
        simp only [List.length_append, List.length_cons] at hfst hrec ⊢
        omega
      · injection h with h1
        injection h1 with h2 h3
        subst h2
        subst h3
        exact hfst

theorem splitLastPat_length {p : Char} {ps cs pre post : List Char}
    (h : splitLastPat p ps cs = some (pre, post)) :
    pre.length + (p :: ps).length + post.length = cs.length :=
  splitLastPatGo_length cs.length h

/-- The current line: characters before the first newline, and the rest
(starting with that newline when present). -/
def upToNewline : List Char → List Char × List Char
  | [] => ([], [])
  | c :: rest =>
    if c = '\n' then ([], c :: rest)
    else
      let (w, r) := upToNewline rest
      (c :: w, r)

theorem upToNewline_length (cs : List Char) :
    (upToNewline cs).1.length + (upToNewline cs).2.length = cs.length := by
  induction cs with
  | nil => simp [upToNewline]
  | cons c rest ih =>
    simp only [upToNewline]
    split
    · simp
    · simp only [List.length_cons]
      omega

/-- Split on every newline (JS `split('\n')` / the `m` flag's line
structure). -/
def splitLines : List Char → List (List Char)
  | [] => [[]]
  | c :: rest =>
    if c = '\n' then [] :: splitLines rest
    else
      match splitLines rest with
      | l :: ls => (c :: l) :: ls
      | [] => [[c]]

/-- Join lines with a newline separator (JS `join('\n')`). -/
def joinLines : List (List Char) → List Char
  | [] => []
  | [l] => l
  | l :: l2 :: ls => l ++ '\n' :: joinLines (l2 :: ls)

theorem splitLines_ne_nil (cs : List Char) : splitLines cs ≠ [] := by
  cases cs with
  | nil => simp [splitLines]
  | cons c rest =>
    rw [splitLines]
    split
    · simp
    · split <;> simp

theorem joinLines_splitLines (cs : List Char) : joinLines (splitLines cs) = cs := by
  induction cs with
  | nil => rfl
  | cons c rest ih =>
    rw [splitLines]
    split
    · rename_i hc
      subst hc
      rcases hsp : splitLines rest with _ | ⟨l, ls⟩
      · exact absurd hsp (splitLines_ne_nil rest)
      · rw [hsp] at ih
        rw [joinLines]
        simpa using ih
    · rcases hsp : splitLines rest with _ | ⟨l, ls⟩
      · exact absurd hsp (splitLines_ne_nil rest)
      · rw [hsp] at ih
        cases ls with
        | nil => simpa [joinLines] using ih
        | cons l2 ls2 =>
          rw [joinLines] at ih ⊢
          rw [List.cons_append, ih]

/-- Apply a per-line rewrite (one multiline-anchored regex pass). -/
def lineMap (f : List Char → List Char) (cs : List Char) : List Char :=
  joinLines ((splitLines cs).map f)

theorem lineMap_id (f : List Char → List Char) (cs : List Char)
    (h : ∀ line ∈ splitLines cs, f line = line) : lineMap f cs = cs := by
  rw [lineMap, List.map_congr_left h, List.map_id', joinLines_splitLines]

/-- `^### (.+)$` → `<h3>$1</h3>`. -/
def h3Line (line : List Char) : List Char :=
  match line with
  | '#' :: '#' :: '#' :: ' ' :: rest =>
    if rest = [] then line else "<h3>".data ++ rest ++ "</h3>".data
  | _ => line

/-- `^## (.+)$` → `<h2>$1</h2>`. -/
def h2Line (line : List Char) : List Char :=
  match line with
  | '#' :: '#' :: ' ' :: rest =>
    if rest = [] then line else "<h2>".data ++ rest ++ "</h2>".data
  | _ => line

/-- `^# (.+)$` → `<h1>$1</h1>`. -/
def h1Line (line : List Char) : List Char :=
  match line with
  | '#' :: ' ' :: rest =>
    if rest = [] then line else "<h1>".data ++ rest ++ "</h1>".data
  | _ => line

/-- The three header passes, in source order (h3, then h2, then h1). -/
def headersPass (cs : List Char) : List Char :=
  lineMap h1Line (lineMap h2Line (lineMap h3Line cs))

/-- Does the remainder begin with the closing `**`?  If so, return what
follows it. -/
def afterTwoStars : List Char → Option (List Char)
  | '*' :: '*' :: tail => some tail
  | _ => none

theorem afterTwoStars_length {cs tail : List Char} (h : afterTwoStars cs = some tail) :
    tail.length + 2 = cs.length := by
  unfold afterTwoStars at h
  split at h
  · injection h with h1
    subst h1
    simp
  · exact absurd h (by simp)

/-- Find the lazy close of `\*\*(.+?)\*\*`: the shortest nonempty
newline-free content followed by `**`.  Returns content and the
remainder after the closing `**`. -/
def findBoldClose : List Char → Option (List Char × List Char)
  | [] => none
  | c :: rest =>
    if c = '\n' then none
    else
      match afterTwoStars rest with
      | some tail => some ([c], tail)
      | none =>
        match findBoldClose rest with
        | some (content, tail) => some (c :: content, tail)
        | none => none

theorem findBoldClose_length {cs content tail : List Char}
    (h : findBoldClose cs = some (content, tail)) :
    content.length + 2 + tail.length = cs.length := by
  induction cs generalizing content tail with
  | nil => simp [findBoldClose] at h
  | cons c rest ih =>
    rw [findBoldClose] at h
    split at h
    · exact absurd h (by simp)
    · split at h
      · rename_i tail0 heq
        injection h with h1
        injection h1 with h2 h3
        subst h2
        subst h3
        have := afterTwoStars_length heq
        simp only [List.length_cons, List.length_nil]
        omega
      · split at h
        · rename_i content0 tail0 heq2
          injection h with h1
          injection h1 with h2 h3
          subst h2
          subst h3
          have := ih heq2
          simp only [List.length_cons]
          omega
        · exact absurd h (by simp)

/-- Fuelled body for `boldPass`: at each position, if the two-star
opener is present and a close is found, substitute and continue after
the match; otherwise emit one character and rescan from the next
position. -/
def boldPassGo : Nat → List Char → List Char
  | 0, _ => []
  | _ + 1, [] => []
  | fuel + 1, c :: rest =>
    match afterTwoStars (c :: rest) with
    | some rest2 =>
      match findBoldClose rest2 with
      | some (content, tail) =>
        "<strong>".data ++ content ++ "</strong>".data ++ boldPassGo fuel tail
      | none => c :: boldPassGo fuel rest
    | none => c :: boldPassGo fuel rest

/-- Global `\*\*(.+?)\*\*` → `<strong>$1</strong>`. -/
def boldPass (cs : List Char) : List Char := boldPassGo cs.length cs

theorem boldPassGo_congr (n : Nat) :
    ∀ (m : Nat) (cs : List Char), cs.length ≤ n → cs.length ≤ m →
      boldPassGo n cs = boldPassGo m cs := by
  induction n with
  | zero =>
    intro m cs hn _
    have hcs : cs = [] := List.length_eq_zero.mp (Nat.le_zero.mp hn)
    subst hcs
    cases m <;> rfl
  | succ n ih =>
    intro m cs hn hm
    cases cs with
    | nil => cases m <;> rfl
    | cons c rest =>
      cases m with
      | zero => simp at hm
      | succ m =>
        simp only [boldPassGo]
        simp only [List.length_cons] at hn hm
        cases h2 : afterTwoStars (c :: rest) with
        | some rest2 =>
          dsimp only
          have hl2 := afterTwoStars_length h2
          simp only [List.length_cons] at hl2
          cases hcl : findBoldClose rest2 with
          | some pr =>
            obtain ⟨content, tail⟩ := pr
            dsimp only
            have hl3 := findBoldClose_length hcl
            rw [ih m tail (by omega) (by omega)]
          | none =>
            dsimp only
            rw [ih m rest (by omega) (by omega)]
        | none =>
          dsimp only
          rw [ih m rest (by omega) (by omega)]

theorem boldPassGo_spec (n : Nat) (cs : List Char) (h : cs.length ≤ n) :
    boldPassGo n cs = boldPass cs :=
  boldPassGo_congr n cs.length cs h (Nat.le_refl _)

theorem boldPass_nil : boldPass [] = [] := rfl

theorem boldPass_open_close {c : Char} {rest rest2 content tail : List Char}
    (h2 : afterTwoStars (c :: rest) = some rest2)
    (hcl : findBoldClose rest2 = some (content, tail)) :
    boldPass (c :: rest)
      = "<strong>".data ++ content ++ "</strong>".data ++ boldPass tail := by
  have hl2 := afterTwoStars_length h2
  have hl3 := findBoldClose_length hcl
  simp only [List.length_cons] at hl2
  show boldPassGo (c :: rest).length (c :: rest) = _
  rw [List.length_cons, boldPassGo, h2]
  dsimp only
  rw [hcl]
  dsimp only
  rw [boldPassGo_spec rest.length tail (by omega)]

theorem boldPass_no_close {c : Char} {rest rest2 : List Char}
    (h2 : afterTwoStars (c :: rest) = some rest2)
    (hcl : findBoldClose rest2 = none) :
    boldPass (c :: rest) = c :: boldPass rest := by
  show boldPassGo (c :: rest).length (c :: rest) = _
  rw [List.length_cons, boldPassGo, h2]
  dsimp only
  rw [hcl]
  dsimp only
  rw [boldPassGo_spec rest.length rest (Nat.le_refl _)]

theorem boldPass_no_open {c : Char} {rest : List Char}
    (h2 : afterTwoStars (c :: rest) = none) :
    boldPass (c :: rest) = c :: boldPass rest := by
  show boldPassGo (c :: rest).length (c :: rest) = _
  rw [List.length_cons, boldPassGo, h2]
  dsimp only
  rw [boldPassGo_spec rest.length rest (Nat.le_refl _)]

/-- Does the remainder begin with the closing `*`?  If so, return what
follows it. -/
def afterOneStar : List Char → Option (List Char)
  | '*' :: tail => some tail
  | _ => none

theorem afterOneStar_length {cs tail : List Char} (h : afterOneStar cs = some tail) :
    tail.length + 1 = cs.length := by
  unfold afterOneStar at h
  split at h
  · injection h with h1
    subst h1
    simp
  · exact absurd h (by simp)

/-- Find the lazy close of `\*(.+?)\*`. -/
def findItalClose : List Char → Option (List Char × List Char)
  | [] => none
  | c :: rest =>
    if c = '\n' then none
    else
      match afterOneStar rest with
      | some tail => some ([c], tail)
      | none =>
        match findItalClose rest with
        | some (content, tail) => some (c :: content, tail)
        | none => none

theorem findItalClose_length {cs content tail : List Char}
    (h : findItalClose cs = some (content, tail)) :
    content.length + 1 + tail.length = cs.length := by
  induction cs generalizing content tail with
  | nil => simp [findItalClose] at h
  | cons c rest ih =>
    rw [findItalClose] at h
    split at h
    · exact absurd h (by simp)
    · split at h
      · rename_i tail0 heq
        injection h with h1
        injection h1 with h2 h3
        subst h2
        subst h3
        have := afterOneStar_length heq
        simp only [List.length_cons, List.length_nil]
        omega
      · split at h
        · rename_i content0 tail0 heq2
          injection h with h1
          injection h1 with h2 h3
          subst h2
          subst h3
          have := ih heq2
          simp only [List.length_cons]
          omega
        · exact absurd h (by simp)

/-- Fuelled body for `italicPass`. -/
def italicPassGo : Nat → List Char → List Char
  | 0, _ => []
  | _ + 1, [] => []
  | fuel + 1, c :: rest =>
    match afterOneStar (c :: rest) with
    | some rest2 =>
      match findItalClose rest2 with
      | some (content, tail) =>
        "<em>".data ++ content ++ "</em>".data ++ italicPassGo fuel tail
      | none => c :: italicPassGo fuel rest
    | none => c :: italicPassGo fuel rest

/-- Global `\*(.+?)\*` → `<em>$1</em>` (runs after the bold pass). -/
def italicPass (cs : List Char) : List Char := italicPassGo cs.length cs

theorem italicPassGo_congr (n : Nat) :
    ∀ (m : Nat) (cs : List Char), cs.length ≤ n → cs.length ≤ m →
      italicPassGo n cs = italicPassGo m cs := by
  induction n with
  | zero =>
    intro m cs hn _
    have hcs : cs = [] := List.length_eq_zero.mp (Nat.le_zero.mp hn)
    subst hcs
    cases m <;> rfl
  | succ n ih =>
    intro m cs hn hm
    cases cs with
    | nil => cases m <;> rfl
    | cons c rest =>
      cases m with
      | zero => simp at hm
      | succ m =>
        simp only [italicPassGo]
        simp only [List.length_cons] at hn hm
        cases h2 : afterOneStar (c :: rest) with
        | some rest2 =>
          dsimp only
          have hl2 := afterOneStar_length h2
          simp only [List.length_cons] at hl2
          cases hcl : findItalClose rest2 with
          | some pr =>
            obtain ⟨content, tail⟩ := pr
            dsimp only
            have hl3 := findItalClose_length hcl
            rw [ih m tail (by omega) (by omega)]
          | none =>
            dsimp only
            rw [ih m rest (by omega) (by omega)]
        | none =>
          dsimp only
          rw [ih m rest (by omega) (by omega)]

theorem italicPassGo_spec (n : Nat) (cs : List Char) (h : cs.length ≤ n) :
    italicPassGo n cs = italicPass cs :=
  italicPassGo_congr n cs.length cs h (Nat.le_refl _)

theorem italicPass_nil : italicPass [] = [] := rfl

theorem italicPass_no_close {c : Char} {rest rest2 : List Char}
    (h2 : afterOneStar (c :: rest) = some rest2)
    (hcl : findItalClose rest2 = none) :
    italicPass (c :: rest) = c :: italicPass rest := by
  show italicPassGo (c :: rest).length (c :: rest) = _
  rw [List.length_cons, italicPassGo, h2]
  dsimp only
  rw [hcl]
  dsimp only
  rw [italicPassGo_spec rest.length rest (Nat.le_refl _)]

theorem italicPass_no_open {c : Char} {rest : List Char}
    (h2 : afterOneStar (c :: rest) = none) :
    italicPass (c :: rest) = c :: italicPass rest := by
  show italicPassGo (c :: rest).length (c :: rest) = _
  rw [List.length_cons, italicPassGo, h2]
  dsimp only
  rw [italicPassGo_spec rest.length rest (Nat.le_refl _)]

/-- `^\* (.+)$` → `<li>$1</li>`. -/
def bulletLine (line : List Char) : List Char :=
  match line with
  | '*' :: ' ' :: rest =>
    if rest = [] then line else "<li>".data ++ rest ++ "</li>".data
  | _ => line

/-- The bullet-item pass. -/
def bulletPass (cs : List Char) : List Char := lineMap bulletLine cs

/-- `^\d+\. (.+)$` → `<li>$1</li>`. -/
def numberedLine (line : List Char) : List Char :=
  match takeDigits line with
  | ([], _) => line
  | (_ :: _, r) =>
    match r with
    | '.' :: ' ' :: rest =>
      if rest = [] then line else "<li>".data ++ rest ++ "</li>".data
    | _ => line

/-- The numbered-item pass (items are not wrapped in a list container). -/
def numberedPass (cs : List Char) : List Char := lineMap numberedLine cs

/-- One unit of `(<li>.*<\/li>\n?)+`: the literal `<li>`, the greedy
newline-free `.*` (backtracking to the last `</li>` of the current
line), the literal `</li>`, and an optional immediately-following
newline.  Returns the matched text and the remainder. -/
def matchLiUnit (cs : List Char) : Option (List Char × List Char) :=
  if startsWithL "<li>".data cs then
    match splitLastPat '<' "/li>".data (upToNewline (cs.drop 4)).1 with
    | none => none
    | some (content, after) =>
      match after ++ (upToNewline (cs.drop 4)).2 with
      | '\n' :: more => some ("<li>".data ++ content ++ "</li>\n".data, more)
      | other => some ("<li>".data ++ content ++ "</li>".data, other)
  else none

theorem matchLiUnit_length {cs unit rest : List Char}
    (h : matchLiUnit cs = some (unit, rest)) : rest.length + 9 ≤ cs.length := by
  unfold matchLiUnit at h
  split at h
  · rename_i hpre
    have hle : 4 ≤ cs.length := by simpa using startsWithL_length hpre
    have hup := upToNewline_length (cs.drop 4)
    rw [List.length_drop] at hup
    split at h
    · exact absurd h (by simp)
    · rename_i content after heq
      have hlast := splitLastPat_length heq
      simp only [List.length_cons, List.length_nil] at hlast
      split at h
      · rename_i more heq2
        injection h with h1
        injection h1 with h2 h3
        subst h3
        have hca : after.length + (upToNewline (cs.drop 4)).2.length = more.length + 1 := by
          have := congrArg List.length heq2
          simpa using this
        omega
      · injection h with h1
        injection h1 with h2 h3
        subst h3
        simp only [List.length_append]
        omega
  · exact absurd h (by simp)

/-- Fuelled body for `matchLiRun`. -/
def matchLiRunGo : Nat → List Char → Option (List Char × List Char)
  | 0, _ => none
  | fuel + 1, cs =>
    match matchLiUnit cs with
    | none => none
    | some (unit, rest) =>
      match matchLiRunGo fuel rest with
      | some (units, rest2) => some (unit ++ units, rest2)
      | none => some (unit, rest)

theorem matchLiUnit_nil : matchLiUnit [] = none := rfl

/-- The greedy `+`: one or more consecutive units. -/
def matchLiRun (cs : List Char) : Option (List Char × List Char) :=
  matchLiRunGo cs.length cs

theorem matchLiRunGo_congr (n : Nat) :
    ∀ (m : Nat) (cs : List Char), cs.length ≤ n → cs.length ≤ m →
      matchLiRunGo n cs = matchLiRunGo m cs := by
  induction n with
  | zero =>
    intro m cs hn _
    have hcs : cs = [] := List.length_eq_zero.mp (Nat.le_zero.mp hn)
    subst hcs
    cases m with
    | zero => rfl
    | succ m => simp [matchLiRunGo, matchLiUnit_nil]
  | succ n ih =>
    intro m cs hn hm
    cases hu : matchLiUnit cs with
    | none =>
      cases m with
      | zero =>
        have hcs : cs = [] := List.length_eq_zero.mp (Nat.le_zero.mp hm)
        subst hcs
        simp [matchLiRunGo, matchLiUnit_nil]
      | succ m => simp [matchLiRunGo, hu]
    | some pr =>
      obtain ⟨unit, rest⟩ := pr
      have hlen := matchLiUnit_length hu
      cases m with
      | zero =>
        have hcs : cs = [] := List.length_eq_zero.mp (Nat.le_zero.mp hm)
        subst hcs
        rw [matchLiUnit_nil] at hu
        cases hu
      | succ m =>
        simp only [matchLiRunGo, hu]
        rw [ih m rest (by omega) (by omega)]

theorem matchLiRunGo_spec (n : Nat) (cs : List Char) (h : cs.length ≤ n) :
    matchLiRunGo n cs = matchLiRun cs :=
  matchLiRunGo_congr n cs.length cs h (Nat.le_refl _)

theorem matchLiRun_eq_none {cs : List Char} (h : matchLiUnit cs = none) :
    matchLiRun cs = none := by
  cases cs with
  | nil => rfl
  | cons c rest =>
    show matchLiRunGo (c :: rest).length (c :: rest) = none
    rw [List.length_cons, matchLiRunGo, h]

theorem matchLiRunGo_length (fuel : Nat) :
    ∀ {cs m rest : List Char}, matchLiRunGo fuel cs = some (m, rest) →
      rest.length + 9 ≤ cs.length := by
  induction fuel with
  | zero =>
    intro cs m rest h
    cases h
  | succ fuel ih =>
    intro cs m rest h
    rw [matchLiRunGo] at h
    split at h
    · exact absurd h (by simp)
    · rename_i unit rest0 heq
      have h1 := matchLiUnit_length heq
      split at h
      · rename_i units rest2 heq2
        have h2 := ih heq2
        injection h with h3
        injection h3 with h4 h5
        subst h5
        omega
      · injection h with h3
        injection h3 with h4 h5
        subst h5
        exact h1

theorem matchLiRun_length {cs m rest : List Char}
    (h : matchLiRun cs = some (m, rest)) : rest.length + 9 ≤ cs.length :=
  matchLiRunGo_length cs.length h

/-- Fuelled body for `ulWrapPass`. -/
def ulWrapPassGo : Nat → List Char → List Char
  | 0, _ => []
  | _ + 1, [] => []
  | fuel + 1, c :: rest =>
    match matchLiRun (c :: rest) with
    | some (m, rest2) => "<ul>".data ++ m ++ "</ul>".data ++ ulWrapPassGo fuel rest2
    | none => c :: ulWrapPassGo fuel rest

/-- Global `(<li>.*<\/li>\n?)+` → `<ul>$&</ul>`. -/
def ulWrapPass (cs : List Char) : List Char := ulWrapPassGo cs.length cs

theorem ulWrapPassGo_congr (n : Nat) :
    ∀ (m : Nat) (cs : List Char), cs.length ≤ n → cs.length ≤ m →
      ulWrapPassGo n cs = ulWrapPassGo m cs := by
  induction n with
  | zero =>
    intro m cs hn _
    have hcs : cs = [] := List.length_eq_zero.mp (Nat.le_zero.mp hn)
    subst hcs
    cases m <;> rfl
  | succ n ih =>
    intro m cs hn hm
    cases cs with
    | nil => cases m <;> rfl
    | cons c rest =>
      cases m with
      | zero => simp at hm
      | succ m =>
        simp only [ulWrapPassGo]
        simp only [List.length_cons] at hn hm
        cases hr : matchLiRun (c :: rest) with
        | some pr =>
          obtain ⟨mt, rest2⟩ := pr
          dsimp only
          have hlen := matchLiRun_length hr
          simp only [List.length_cons] at hlen
          rw [ih m rest2 (by omega) (by omega)]
        | none =>
          dsimp only
          rw [ih m rest (by omega) (by omega)]

theorem ulWrapPassGo_spec (n : Nat) (cs : List Char) (h : cs.length ≤ n) :
    ulWrapPassGo n cs = ulWrapPass cs :=
  ulWrapPassGo_congr n cs.length cs h (Nat.le_refl _)

theorem ulWrapPass_nil : ulWrapPass [] = [] := rfl

theorem ulWrapPass_cons_none {c : Char} {rest : List Char}
    (h : matchLiRun (c :: rest) = none) :
    ulWrapPass (c :: rest) = c :: ulWrapPass rest := by
  show ulWrapPassGo (c :: rest).length (c :: rest) = _
  rw [List.length_cons, ulWrapPassGo, h]
  dsimp only
  rw [ulWrapPassGo_spec rest.length rest (Nat.le_refl _)]

/-! Table pass: the regex
`\|(.+)\|\n\|[-: |]+\|\n((?:\|.+\|\n?)+)` with callback building
`<table>…</table>` (header cells from group 1, body rows from group 2,
cells split on `|`, whitespace-only cells dropped, cells trimmed). -/

/-- Characters allowed in the separator row class `[-: |]`. -/
def isSepChar (c : Char) : Bool := c = '-' || c = ':' || c = ' ' || c = '|'

/-- One unit of the body group `(?:\|.+\|\n?)`: a leading `|`, greedy
newline-free content backtracking to the last `|` of the line (content
nonempty), and an optional immediately-following newline. -/
def matchBodyUnit (cs : List Char) : Option (List Char × List Char) :=
  match cs with
  | '|' :: cs2 =>
    match splitLastPat '|' [] (upToNewline cs2).1 with
    | none => none
    | some (content, after) =>
      if content = [] then none
      else
        match after ++ (upToNewline cs2).2 with
        | '\n' :: more => some ('|' :: content ++ "|\n".data, more)
        | other => some ('|' :: content ++ "|".data, other)
  | _ => none

theorem matchBodyUnit_length {cs unit rest : List Char}
    (h : matchBodyUnit cs = some (unit, rest)) : rest.length + 3 ≤ cs.length := by
  unfold matchBodyUnit at h
  split at h
  · rename_i cs2
    have hup := upToNewline_length cs2
    split at h
    · exact absurd h (by simp)
    · rename_i content after heq
      have hlast := splitLastPat_length heq
      simp only [List.length_cons, List.length_nil] at hlast
      split at h
      · exact absurd h (by simp)
      · rename_i hcne
        have hcpos : 0 < content.length := List.length_pos.mpr hcne
        split at h
        · rename_i more heq2
          injection h with h1
          injection h1 with h2 h3
          subst h3
          have hca : after.length + (upToNewline cs2).2.length = more.length + 1 := by
            have := congrArg List.length heq2
            simpa using this
          simp only [List.length_cons]
          omega
        · injection h with h1
          injection h1 with h2 h3
          subst h3
          simp only [List.length_cons, List.length_append]
          omega
  · exact absurd h (by simp)

/-- Fuelled body for `matchBodyRun`. -/
def matchBodyRunGo : Nat → List Char → Option (List Char × List Char)
  | 0, _ => none
  | fuel + 1, cs =>
    match matchBodyUnit cs with
    | none => none
    | some (unit, rest) =>
      match matchBodyRunGo fuel rest with
      | some (units, rest2) => some (unit ++ units, rest2)
      | none => some (unit, rest)

theorem matchBodyUnit_nil : matchBodyUnit [] = none := rfl

/-- The greedy `+` over body units; the concatenated matched text is the
group-2 body text. -/
def matchBodyRun (cs : List Char) : Option (List Char × List Char) :=
  matchBodyRunGo cs.length cs

theorem matchBodyRunGo_congr (n : Nat) :
    ∀ (m : Nat) (cs : List Char), cs.length ≤ n → cs.length ≤ m →
      matchBodyRunGo n cs = matchBodyRunGo m cs := by
  induction n with
  | zero =>
    intro m cs hn _
    have hcs : cs = [] := List.length_eq_zero.mp (Nat.le_zero.mp hn)
    subst hcs
    cases m with
    | zero => rfl
    | succ m => simp [matchBodyRunGo, matchBodyUnit_nil]
  | succ n ih =>
    intro m cs hn hm
    cases hu : matchBodyUnit cs with
    | none =>
      cases m with
      | zero =>
        have hcs : cs = [] := List.length_eq_zero.mp (Nat.le_zero.mp hm)
        subst hcs
        simp [matchBodyRunGo, matchBodyUnit_nil]
      | succ m => simp [matchBodyRunGo, hu]
    | some pr =>
      obtain ⟨unit, rest⟩ := pr
      have hlen := matchBodyUnit_length hu
      cases m with
      | zero =>
        have hcs : cs = [] := List.length_eq_zero.mp (Nat.le_zero.mp hm)
        subst hcs
        rw [matchBodyUnit_nil] at hu
        cases hu
      | succ m =>
        simp only [matchBodyRunGo, hu]
        rw [ih m rest (by omega) (by omega)]

theorem matchBodyRunGo_spec (n : Nat) (cs : List Char) (h : cs.length ≤ n) :
    matchBodyRunGo n cs = matchBodyRun cs :=
  matchBodyRunGo_congr n cs.length cs h (Nat.le_refl _)

theorem matchBodyRunGo_length (fuel : Nat) :
    ∀ {cs m rest : List Char}, matchBodyRunGo fuel cs = some (m, rest) →
      rest.length + 3 ≤ cs.length := by
  induction fuel with
  | zero =>
    intro cs m rest h
    cases h
  | succ fuel ih =>
    intro cs m rest h
    rw [matchBodyRunGo] at h
    split at h
    · exact absurd h (by simp)
    · rename_i unit rest0 heq
      have h1 := matchBodyUnit_length heq
      split at h
      · rename_i units rest2 heq2
        have h2 := ih heq2
        injection h with h3
        injection h3 with h4 h5
        subst h5
        omega
      · injection h with h3
        injection h3 with h4 h5
        subst h5
        exact h1

theorem matchBodyRun_length {cs m rest : List Char}
    (h : matchBodyRun cs = some (m, rest)) : rest.length + 3 ≤ cs.length :=
  matchBodyRunGo_length cs.length h

/-- Attempt the full table match at the current position: the header row
`\|(.+)\|\n` (whose closing `|` must end the line), the separator row
`\|[-: |]+\|\n`, then the body group.  Returns the group-1 header
content, the group-2 body text, and the remainder. -/
def matchTable (cs : List Char) : Option (List Char × List Char × List Char) :=
  match cs with
  | '|' :: cs1 =>
    if 2 ≤ (upToNewline cs1).1.length ∧ (upToNewline cs1).1.getLast? = some '|' then
      match (upToNewline cs1).2 with
      | '\n' :: cs2 =>
        match cs2 with
        | '|' :: cs3 =>
          if 2 ≤ (upToNewline cs3).1.length ∧ (upToNewline cs3).1.getLast? = some '|'
              ∧ (upToNewline cs3).1.dropLast.all isSepChar then
            match (upToNewline cs3).2 with
            | '\n' :: cs4 =>
              match matchBodyRun cs4 with
              | some (body, rest) => some ((upToNewline cs1).1.dropLast, body, rest)
              | none => none
            | _ => none
          else none
        | _ => none
      | _ => none
    else none
  | _ => none

theorem matchTable_length {cs hc body rest : List Char}
    (h : matchTable cs = some (hc, body, rest)) : rest.length < cs.length := by
  unfold matchTable at h
  split at h
  · rename_i cs1
    have hup1 := upToNewline_length cs1
    split at h
    · split at h
      · rename_i cs2 heq1
        split at h
        · rename_i cs3
          have hup2 := upToNewline_length cs3
          split at h
          · split at h
            · rename_i cs4 heq2
              split at h
              · rename_i body0 rest0 heq3
                injection h with h1
                injection h1 with h2 h3
                injection h3 with h4 h5
                subst h5
                have hbr := matchBodyRun_length heq3
                have hr1 := congrArg List.length heq1
                have hr2 := congrArg List.length heq2
                simp only [List.length_cons] at hr1 hr2 ⊢
                omega
              · exact absurd h (by simp)
            · exact absurd h (by simp)
          · exact absurd h (by simp)
        · exact absurd h (by simp)
      · exact absurd h (by simp)
    · exact absurd h (by simp)
  · exact absurd h (by simp)

/-- JS `split(sep)` for a single-character separator. -/
def splitOnChar (sep : Char) : List Char → List (List Char)
  | [] => [[]]
  | c :: rest =>
    if c = sep then [] :: splitOnChar sep rest
    else
      match splitOnChar sep rest with
      | l :: ls => (c :: l) :: ls
      | [] => [[c]]

/-- Leading-whitespace strip. -/
def trimLeft : List Char → List Char
  | [] => []
  | c :: rest => if c.isWhitespace then trimLeft rest else c :: rest

/-- JS `trim()`: strip whitespace from both ends. -/
def jsTrim (cs : List Char) : List Char := (trimLeft (trimLeft cs.reverse).reverse)

/-- Concatenation of a list of lists. -/
def catList : List (List Char) → List Char
  | [] => []
  | l :: ls => l ++ catList ls

/-- The table callback: build the `<table>` markup from the group-1
header content and group-2 body text. -/
def buildTableHtml (headerContent bodyText : List Char) : List Char :=
  let headers := (splitOnChar '|' headerContent).filter (fun h => jsTrim h ≠ [])
  let rows := (splitOnChar '\n' (jsTrim bodyText)).map
    (fun row => (splitOnChar '|' row).filter (fun c => jsTrim c ≠ []))
  "<table><thead><tr>".data ++
    catList (headers.map (fun h => "<th>".data ++ jsTrim h ++ "</th>".data)) ++
    "</tr></thead><tbody>".data ++
    catList (rows.map (fun row =>
      "<tr>".data ++
        catList (row.map (fun c => "<td>".data ++ jsTrim c ++ "</td>".data)) ++
        "</tr>".data)) ++
    "</tbody></table>".data

/-- Fuelled body for `tablePass`. -/
def tablePassGo : Nat → List Char → List Char
  | 0, _ => []
  | _ + 1, [] => []
  | fuel + 1, c :: rest =>
    match matchTable (c :: rest) with
    | some (hc, body, rest2) => buildTableHtml hc body ++ tablePassGo fuel rest2
    | none => c :: tablePassGo fuel rest

/-- The global table pass. -/
def tablePass (cs : List Char) : List Char := tablePassGo cs.length cs

theorem tablePassGo_congr (n : Nat) :
    ∀ (m : Nat) (cs : List Char), cs.length ≤ n → cs.length ≤ m →
      tablePassGo n cs = tablePassGo m cs := by
  induction n with
  | zero =>
    intro m cs hn _
    have hcs : cs = [] := List.length_eq_zero.mp (Nat.le_zero.mp hn)
    subst hcs
    cases m <;> rfl
  | succ n ih =>
    intro m cs hn hm
    cases cs with
    | nil => cases m <;> rfl
    | cons c rest =>
      cases m with
      | zero => simp at hm
      | succ m =>
        simp only [tablePassGo]
        simp only [List.length_cons] at hn hm
        cases ht : matchTable (c :: rest) with
        | some pr =>
          obtain ⟨hc, body, rest2⟩ := pr
          dsimp only
          have hlen := matchTable_length ht
          simp only [List.length_cons] at hlen
          rw [ih m rest2 (by omega) (by omega)]
        | none =>
          dsimp only
          rw [ih m rest (by omega) (by omega)]

theorem tablePassGo_spec (n : Nat) (cs : List Char) (h : cs.length ≤ n) :
    tablePassGo n cs = tablePass cs :=
  tablePassGo_congr n cs.length cs h (Nat.le_refl _)

theorem tablePass_nil : tablePass [] = [] := rfl

theorem tablePass_cons_none {c : Char} {rest : List Char}
    (h : matchTable (c :: rest) = none) :
    tablePass (c :: rest) = c :: tablePass rest := by
  show tablePassGo (c :: rest).length (c :: rest) = _
  rw [List.length_cons, tablePassGo, h]
  dsimp only
  rw [tablePassGo_spec rest.length rest (Nat.le_refl _)]

/-- JS `split('\n\n')`: split at each non-overlapping leftmost
occurrence of a blank line separator. -/
def splitOnNN : List Char → List (List Char)
  | [] => [[]]
  | [c] => [[c]]
  | c1 :: c2 :: rest =>
    if c1 = '\n' ∧ c2 = '\n' then [] :: splitOnNN rest
    else
      match splitOnNN (c2 :: rest) with
      | l :: ls => (c1 :: l) :: ls
      | [] => [[c1]]

/-- The paragraph wrap for one chunk:
`p = p.trim(); if (!p) return ''; if (p.startsWith('<h') || '<ul' ||
'<ol' || '<li' || '<table') return p; return '<p>' + p + '</p>';` -/
def paraChunk (chunk : List Char) : List Char :=
  let p := jsTrim chunk
  if p = [] then []
  else if startsWithL "<h".data p || startsWithL "<ul".data p ||
      startsWithL "<ol".data p || startsWithL "<li".data p ||
      startsWithL "<table".data p then p
  else "<p>".data ++ p ++ "</p>".data

/-- The paragraph pass: split on `\n\n`, wrap each chunk, join with
`\n`. -/
def paragraphsPass (cs : List Char) : List Char :=
  joinLines ((splitOnNN cs).map paraChunk)

/-- `renderMarkdown(content)` — the full sequential rewriting pipeline
of the ui variant (`app.js` lines 465–518). -/
def renderMarkdown (content : String) : String :=
  String.mk (paragraphsPass (tablePass (numberedPass (ulWrapPass (bulletPass
    (italicPass (boldPass (headersPass content.data))))))))

/-! ### Tooltip controller (`app.js` lines 520–640)

JS state: the module variables `hideTimeout`, `currentSourceId`,
`currentSectionKey`, the tooltip element's `visible`/`pinned` classes
and its text nodes, plus the browser's queue of scheduled, not yet
fired or cleared, timers.  `setTimeout` returns a fresh positive id and
adds the timer to the queue; `clearTimeout(id)` removes it; a timer
that fires leaves the queue and runs its callback. -/

/-- One report section as consumed by the frontend: the engine only
requires `cited_text` and `sources` (spec §6). -/
structure Section : Type where
  cited_text : String
  sources : List (String × Source)
deriving DecidableEq

/-- The per-section data stored from the API (`sectionData`). -/
abbrev SectionData : Type := List (String × Section)

/-- The hide delay constant: `setTimeout(..., 300)`. -/
def hideDelayMs : Nat := 300

/-- The tooltip controller state. -/
structure TooltipState : Type where
  /-- the tooltip element carries the `visible` class -/
  visible : Bool
  /-- the tooltip element carries the `pinned` class -/
  pinned : Bool
  /-- scheduled and still-live timers as `(id, delayMs)`, oldest first -/
  liveTimers : List (Nat × Nat)
  /-- the `hideTimeout` variable: the last stored timer id (may be stale) -/
  hideTimeout : Option Nat
  /-- fresh timer id supply (browser ids are positive) -/
  nextTimerId : Nat
  /-- the `currentSourceId` variable -/
  currentSourceId : Option String
  /-- the `currentSectionKey` variable -/
  currentSectionKey : Option String
  /-- the tooltip's page / title / content text nodes -/
  tooltipPage : String
  tooltipTitle : String
  tooltipContent : String
  /-- recorded `console.warn` diagnostics, oldest first -/
  diagnostics : List String
deriving DecidableEq

/-- Startup state: no classes, `hideTimeout = null`, empty texts. -/
def initTooltipState : TooltipState :=
  { visible := false, pinned := false, liveTimers := [], hideTimeout := none
    nextTimerId := 1, currentSourceId := none, currentSectionKey := none
    tooltipPage := "", tooltipTitle := "", tooltipContent := ""
    diagnostics := [] }

/-- JavaScript `a || b` for a nullable string and a non-empty default
(both `null`/`undefined` and the empty string are falsy). -/
def jsOr (v : Option String) (dflt : String) : String :=
  match v with
  | none => dflt
  | some t => if t = "" then dflt else t

/-- `sectionData[sectionKey]?.sources?.[sourceId]`. -/
def lookupSource (sections : SectionData) (sectionKey sourceId : String) : Option Source :=
  match assocFind sections sectionKey with
  | some sec => assocFind sec.sources sourceId
  | none => none

/-- `cancelHideTimer()`:
`if (hideTimeout) { clearTimeout(hideTimeout); hideTimeout = null; }` -/
def cancelHideTimer (s : TooltipState) : TooltipState :=
  match s.hideTimeout with
  | some id => { s with liveTimers := s.liveTimers.filter (fun t => t.1 ≠ id)
                        hideTimeout := none }
  | none => s

/-- `startHideTimer()`:
`if (tooltip.classList.contains('pinned')) return;
 hideTimeout = setTimeout(..., 300);`
Note: it does not clear a previously scheduled timer. -/
def startHideTimer (s : TooltipState) : TooltipState :=
  if s.pinned then s
  else
    { s with liveTimers := s.liveTimers ++ [(s.nextTimerId, hideDelayMs)]
             hideTimeout := some s.nextTimerId
             nextTimerId := s.nextTimerId + 1 }

/-- Expiry of a live timer `id`: the callback
`tooltip.classList.remove('visible'); currentSourceId = null;
 currentSectionKey = null;` runs and the timer leaves the queue.
A fired or cleared id is a no-op. -/
def timerFire (s : TooltipState) (id : Nat) : TooltipState :=
  if s.liveTimers.any (fun t => t.1 = id) then
    { s with liveTimers := s.liveTimers.filter (fun t => t.1 ≠ id)
             visible := false, currentSourceId := none, currentSectionKey := none }
  else s

/-- `pinTooltip(e)`: `cancelHideTimer(); tooltip.classList.add('pinned');` -/
def pinTooltip (s : TooltipState) : TooltipState :=
  let s1 := cancelHideTimer s
  { s1 with pinned := true }

/-- `hideTooltip()`:
`tooltip.classList.remove('visible', 'pinned');
 currentSourceId = null; currentSectionKey = null;`
(no timer cancellation). -/
def hideTooltip (s : TooltipState) : TooltipState :=
  { s with visible := false, pinned := false
           currentSourceId := none, currentSectionKey := none }

/-- The `console.warn` text on a failed source lookup. -/
def warnMissing (sourceId sectionKey : String) : String :=
  "Source not found: " ++ sourceId ++ " in section " ++ sectionKey

/-- `showTooltip(e)`: cancel the pending timer, record the hovered ids,
look the source up in that placeholder's section; if found set the
tooltip texts (with fallbacks) and the `visible` class, otherwise warn
and leave the popover as it is. -/
def showTooltip (sections : SectionData) (sourceId sectionKey : String)
    (s : TooltipState) : TooltipState :=
  let s1 := cancelHideTimer s
  let s2 := { s1 with currentSourceId := some sourceId
                      currentSectionKey := some sectionKey }
  match lookupSource sections sectionKey sourceId with
  | some source =>
    { s2 with tooltipPage := jsOr source.page_number "Source"
              tooltipTitle := jsOr source.title "Annual Report"
              tooltipContent := jsOr source.raw_text "No preview available"
              visible := true }
  | none => { s2 with diagnostics := s2.diagnostics ++ [warnMissing sourceId sectionKey] }

/-- The DOM events wired to the controller: citation
`mouseenter`/`mouseleave`/`click`, tooltip `mouseenter`/`mouseleave`,
the document-level click (on a citation or inside the tooltip it is a
no-op for hiding; anywhere else it hides), and timer expiry. -/
inductive TEvent : Type
  | enterCitation (sourceId sectionKey : String)
  | leaveCitation
  | enterTooltip
  | leaveTooltip
  | clickCitation
  | clickTooltipInside
  | clickOutside
  | fire (id : Nat)
deriving DecidableEq

/-- Event dispatch, as wired in `addCitationListeners` and the document
click listener. -/
def step (sections : SectionData) (s : TooltipState) : TEvent → TooltipState
  | TEvent.enterCitation sourceId sectionKey => showTooltip sections sourceId sectionKey s
  | TEvent.leaveCitation => startHideTimer s
  | TEvent.enterTooltip => cancelHideTimer s
  | TEvent.leaveTooltip => startHideTimer s
  | TEvent.clickCitation => pinTooltip s
  | TEvent.clickTooltipInside => s
  | TEvent.clickOutside => hideTooltip s
  | TEvent.fire id => timerFire s id

/-- Run a sequence of events from startup. -/
def runEvents (sections : SectionData) (events : List TEvent) : TooltipState :=
  events.foldl (step sections) initTooltipState

/-! ### Viewport positioner (`positionTooltipNear`, lines 603–633) -/

/-- `positionTooltipNear(element)`: place at the anchor's right edge
offset by the fixed `padding = 12`; flip to the left on right-edge
overflow; clamp from the bottom on bottom-edge overflow; finally clamp
both coordinates to at least `padding`.  Geometry is modelled over
`Int` (coordinates may be negative before the final clamp). -/
def positionTooltipNear (rectLeft rectTop rectRight : Int)
    (tooltipWidth tooltipHeight : Int) (innerWidth innerHeight : Int) : Int × Int :=
  let padding : Int := 12
  let x0 := rectRight + padding
  let y0 := rectTop
  let x1 := if x0 + tooltipWidth > innerWidth - padding
    then rectLeft - tooltipWidth - padding else x0
  let y1 := if y0 + tooltipHeight > innerHeight - padding
    then innerHeight - tooltipHeight - padding else y0
  (max padding x1, max padding y1)

/-! ### Supporting lemmas for the claims -/

theorem tokenize_ids_nil_aux (n : Nat) :
    ∀ cs : List Char, cs.length ≤ n → tokIds (tokenize cs) = [] →
      tokenize cs = cs.map CTok.lit := by
  induction n with
  | zero =>
    intro cs hn _
    have hcs : cs = [] := List.length_eq_zero.mp (Nat.le_zero.mp hn)
    subst hcs
    rfl
  | succ n ih =>
    intro cs hn h
    cases cs with
    | nil => rfl
    | cons c rest =>
      cases hm : matchMarker (c :: rest) with
      | some p =>
        obtain ⟨d, r⟩ := p
        rw [tokenize_cons_marker hm, tokIds] at h
        exact absurd h (by simp)
      | none =>
        rw [tokenize_cons_lit hm] at h ⊢
        rw [tokIds] at h
        simp only [List.length_cons] at hn
        rw [ih rest (by omega) h]
        rfl

theorem tokenize_ids_nil {cs : List Char} (h : tokIds (tokenize cs) = []) :
    tokenize cs = cs.map CTok.lit :=
  tokenize_ids_nil_aux cs.length cs (Nat.le_refl _) h

theorem processToks_map_lit (key : String) (cs : List Char) (st : CiteState) :
    processToks key (cs.map CTok.lit) st = (st, String.mk cs) := by
  induction cs generalizing st with
  | nil => rfl
  | cons c rest ih =>
    have h := ih st
    simp only [List.map_cons, processToks, renderTok, h]
    rfl

theorem head_marker_number {t : String} {s : String}
    (h : (markerIds t).head? = some s) : assocFind (citeTable t) s = some 1 := by
  obtain ⟨rest, hrest⟩ : ∃ rest, markerIds t = s :: rest := by
    cases hm : markerIds t with
    | nil => rw [hm] at h; exact absurd h (by simp)
    | cons a r =>
      rw [hm] at h
      simp only [List.head?_cons, Option.some.injEq] at h
      exact ⟨r, by rw [h]⟩
  have htbl := citeTable_eq t
  rw [hrest] at htbl
  have hfs : firstSeen (s :: rest) = s :: fsFrom [s] rest := by
    simp [firstSeen, fsFrom]
  rw [hfs] at htbl
  rw [htbl, List.length_cons, List.range'_succ, List.zip_cons_cons]
  simp [assocFind]

/-- C1: for every input text, `processCitationTags` numbers citations in
first-seen document order: the numbering table pairs the distinct
referenced source ids, in first-seen order, with the contiguous numbers
`1..K` (`K` = number of distinct referenced ids), and the number emitted
for each marker is the 1-based first-seen index of its source id — so
the first marker of a new id takes the next unused integer and every
repeat reuses the id's number.  On `[[Src:5]] [[Src:2]] [[Src:5]]` this
yields `src_5 → 1`, `src_2 → 2`, numbers `[1, 2, 1]`. -/
theorem C1_citation_numbering_first_seen (text : String) :
    citeTable text
      = (firstSeen (markerIds text)).zip
          (List.range' 1 (firstSeen (markerIds text)).length)
    ∧ displayNums text
      = (markerIds text).map (fun s => idxIn (firstSeen (markerIds text)) s + 1)
    ∧ (firstSeen (markerIds text)).Nodup
    ∧ (∀ s, s ∈ firstSeen (markerIds text) ↔ s ∈ markerIds text)
    ∧ displayNums "[[Src:5]] [[Src:2]] [[Src:5]]" = [1, 2, 1]
    ∧ citeTable "[[Src:5]] [[Src:2]] [[Src:5]]" = [("src_5", 1), ("src_2", 2)] := by
  refine ⟨citeTable_eq text, displayNums_eq text, ?_, ?_, ?_, ?_⟩
  · simpa using fsFrom_nodup (markerIds text) [] List.nodup_nil
  · intro s
    simpa [firstSeen] using fsFrom_mem (markerIds text) [] s
  · decide
  · decide

/-- C6: the marker parser is total by construction, and on any text with
no well-formed `[[Src:<digits>]]` marker (malformed markers included) it
returns the text unchanged, byte for byte, with an empty numbering
table. -/
theorem C6_parser_totality_passthrough (text : String)
    (sources : List (String × Source)) (sectionKey : String)
    (h : markerIds text = []) :
    processCitationTags text sources sectionKey = text ∧ citeTable text = [] := by
  constructor
  · have htok : tokenize text.data = text.data.map CTok.lit := tokenize_ids_nil h
    rw [processCitationTags, parseCitations, htok, processToks_map_lit]
  · rw [citeTable_eq, h]
    rfl

/-- Witness for C6 at a malformed-marker input (non-digit content and an
unterminated bracket). -/
theorem C6_witness :
    markerIds "See [[Src:abc]] and [[Src:12" = []
    ∧ processCitationTags "See [[Src:abc]] and [[Src:12" [] "overview"
        = "See [[Src:abc]] and [[Src:12"
    ∧ citeTable "See [[Src:abc]] and [[Src:12" = [] := by
  refine ⟨by decide, ?_, ?_⟩
  · exact (C6_parser_totality_passthrough "See [[Src:abc]] and [[Src:12" [] "overview"
      (by decide)).1
  · exact (C6_parser_totality_passthrough "See [[Src:abc]] and [[Src:12" [] "overview"
      (by decide)).2

/-- C7: citation numbering is section-scoped with no cross-call memory:
parsing a section's text after any earlier parse calls gives exactly the
result of parsing it alone, and two texts whose first marker cites the
same source id both number that id `1`. -/
theorem C7_section_scoped_numbering (pre : List String) (t1 t2 : String)
    (sources : List (String × Source)) (key : String) (s : String)
    (h1 : (markerIds t1).head? = some s) (h2 : (markerIds t2).head? = some s) :
    assocFind (citeTable t1) s = some 1
    ∧ assocFind (citeTable t2) s = some 1
    ∧ ((pre ++ [t1]).map (fun u => processCitationTags u sources key)).getLast?
        = some (processCitationTags t1 sources key) := by
  refine ⟨head_marker_number h1, head_marker_number h2, ?_⟩
  rw [List.map_append, List.map_singleton, List.getLast?_concat]

/-- Witness for C7: two section texts citing `src_7`, each numbering it
`1`, after an unrelated earlier call. -/
theorem C7_witness :
    (markerIds "[[Src:7]] intro").head? = some "src_7"
    ∧ (markerIds "[[Src:7]] more [[Src:9]]").head? = some "src_7"
    ∧ assocFind (citeTable "[[Src:7]] intro") "src_7" = some 1
    ∧ assocFind (citeTable "[[Src:7]] more [[Src:9]]") "src_7" = some 1
    ∧ ((["other section"] ++ ["[[Src:7]] intro"]).map
        (fun u => processCitationTags u [] "overview")).getLast?
        = some (processCitationTags "[[Src:7]] intro" [] "overview") := by
  have h := C7_section_scoped_numbering ["other section"]
    "[[Src:7]] intro" "[[Src:7]] more [[Src:9]]" [] "overview" "src_7"
    (by decide) (by decide)
  exact ⟨by decide, by decide, h.1, h.2.1, h.2.2⟩

/-! ### Tooltip controller claims -/

theorem cancelHideTimer_visible (s : TooltipState) :
    (cancelHideTimer s).visible = s.visible := by
  unfold cancelHideTimer
  split <;> rfl

theorem cancelHideTimer_pinned (s : TooltipState) :
    (cancelHideTimer s).pinned = s.pinned := by
  unfold cancelHideTimer
  split <;> rfl

theorem cancelHideTimer_diagnostics (s : TooltipState) :
    (cancelHideTimer s).diagnostics = s.diagnostics := by
  unfold cancelHideTimer
  split <;> rfl

theorem showTooltip_pinned (sections : SectionData) (sourceId sectionKey : String)
    (s : TooltipState) :
    (showTooltip sections sourceId sectionKey s).pinned = s.pinned := by
  unfold showTooltip
  split <;> simp [cancelHideTimer_pinned]

theorem timerFire_pinned (s : TooltipState) (id : Nat) :
    (timerFire s id).pinned = s.pinned := by
  unfold timerFire
  split <;> rfl

/-- A state with the popover visible and no pending timer. -/
def demoVisibleState : TooltipState := { initTooltipState with visible := true }

/-- A pinned state. -/
def demoPinnedState : TooltipState := { initTooltipState with pinned := true }

/-- A visible state with one pending hide timer held by `hideTimeout`. -/
def demoPendingState : TooltipState :=
  { initTooltipState with
      visible := true, liveTimers := [(1, 300)], hideTimeout := some 1, nextTimerId := 2 }

/-- A state with two stacked timers where `hideTimeout` only remembers
the newer one. -/
def demoStackedState : TooltipState :=
  { initTooltipState with
      liveTimers := [(1, 300), (2, 300)], hideTimeout := some 2, nextTimerId := 3 }

/-- Demo section data: one `overview` section with a single source. -/
def demoSections : SectionData :=
  [("overview", { cited_text := "Intro [[Src:1]].",
                  sources := [("src_1",
                    { title := some "Annual Report 2023",
                      page_number := some "3",
                      raw_text := some "Excerpt text." })] })]

theorem startHideTimer_unpinned {s : TooltipState} (hp : s.pinned = false) :
    startHideTimer s
      = { s with liveTimers := s.liveTimers ++ [(s.nextTimerId, hideDelayMs)]
                 hideTimeout := some s.nextTimerId
                 nextTimerId := s.nextTimerId + 1 } := by
  unfold startHideTimer
  rw [if_neg (by rw [hp]; exact Bool.false_ne_true)]

/-- C4 (amended): from an unpinned state, `startHideTimer` schedules one
new 300 ms hide timer and stores its handle; entering the popover before
it fires cancels exactly that timer and leaves the popover's visibility
untouched; but `startHideTimer` does not cancel a previously pending
timer — every previously live timer is still live after it, so timers
can stack. -/
theorem C4_hide_timer_schedule_not_cancelling (s : TooltipState)
    (hp : s.pinned = false)
    (hfresh : ∀ t ∈ s.liveTimers, t.1 < s.nextTimerId) :
    (startHideTimer s).liveTimers = s.liveTimers ++ [(s.nextTimerId, 300)]
    ∧ (startHideTimer s).hideTimeout = some s.nextTimerId
    ∧ (startHideTimer s).visible = s.visible
    ∧ (cancelHideTimer (startHideTimer s)).liveTimers = s.liveTimers
    ∧ (cancelHideTimer (startHideTimer s)).visible = s.visible
    ∧ (∀ t ∈ s.liveTimers, t ∈ (startHideTimer s).liveTimers) := by
  rw [startHideTimer_unpinned hp]
  have hfilter : (s.liveTimers ++ [(s.nextTimerId, hideDelayMs)]).filter
      (fun t => t.1 ≠ s.nextTimerId) = s.liveTimers := by
    rw [List.filter_append]
    have h1 : s.liveTimers.filter (fun t => t.1 ≠ s.nextTimerId) = s.liveTimers :=
      List.filter_eq_self.mpr (fun t ht =>
        decide_eq_true (Nat.ne_of_lt (hfresh t ht)))
    have h2 : ([(s.nextTimerId, hideDelayMs)] : List (Nat × Nat)).filter
        (fun t => t.1 ≠ s.nextTimerId) = [] := by simp
    rw [h1, h2, List.append_nil]
  refine ⟨rfl, rfl, rfl, ?_, ?_, ?_⟩
  · unfold cancelHideTimer
    exact hfilter
  · rw [cancelHideTimer_visible]
  · intro t ht
    exact List.mem_append_left _ ht

/-- Witness for the amended C4 at a concrete visible state with one
already-pending timer. -/
theorem C4_hide_timer_witness :
    (startHideTimer demoPendingState).liveTimers = [(1, 300), (2, 300)]
    ∧ (cancelHideTimer (startHideTimer demoPendingState)).liveTimers = [(1, 300)]
    ∧ (startHideTimer demoPendingState).visible = true := by
  have h := C4_hide_timer_schedule_not_cancelling demoPendingState
    (by decide) (by decide)
  exact ⟨h.1, h.2.2.2.1, h.2.2.1⟩

/-- Counterexample to C4 as stated: after hovering a citation, a
citation `mouseleave` followed by a tooltip `mouseleave` leaves two
pending hide timers — starting a new timer does not cancel the prior
one, so at most one pending timer does not hold at every reachable
state. -/
theorem C4_counterexample :
    (runEvents demoSections
      [TEvent.enterCitation "src_1" "overview", TEvent.leaveCitation,
       TEvent.leaveTooltip]).liveTimers.length = 2 := by decide

/-- C5 (amended): a click on a citation pins a visible popover and keeps
it visible; while pinned, `pointerLeave` (`startHideTimer`) is a no-op;
`clickOutside` (`hideTooltip`) forces the hidden, unpinned state but
does not cancel pending timers; a later expiry of such a timer leaves
the popover hidden. -/
theorem C5_pin_and_click_outside (s1 s2 s3 : TooltipState) (id : Nat)
    (h1 : s1.visible = true) (h2 : s2.pinned = true) :
    (pinTooltip s1).pinned = true
    ∧ (pinTooltip s1).visible = true
    ∧ startHideTimer s2 = s2
    ∧ (hideTooltip s3).visible = false
    ∧ (hideTooltip s3).pinned = false
    ∧ (hideTooltip s3).liveTimers = s3.liveTimers
    ∧ (timerFire (hideTooltip s3) id).visible = false := by
  refine ⟨rfl, ?_, ?_, rfl, rfl, rfl, ?_⟩
  · show (cancelHideTimer s1).visible = true
    rw [cancelHideTimer_visible, h1]
  · unfold startHideTimer
    rw [if_pos h2]
  · unfold timerFire
    split <;> rfl

/-- Witness for the amended C5 at concrete states. -/
theorem C5_pin_witness :
    (pinTooltip demoVisibleState).pinned = true
    ∧ (pinTooltip demoVisibleState).visible = true
    ∧ startHideTimer demoPinnedState = demoPinnedState
    ∧ (hideTooltip demoPendingState).visible = false
    ∧ (timerFire (hideTooltip demoPendingState) 1).visible = false := by
  have h := C5_pin_and_click_outside demoVisibleState demoPinnedState demoPendingState
    1 (by decide) (by decide)
  exact ⟨h.1, h.2.1, h.2.2.1, h.2.2.2.1, h.2.2.2.2.2.2⟩

/-- Counterexample to C5 as stated: `clickOutside` hides the popover but
the pending hide timer scheduled by the earlier `mouseleave` is still
live — it is not cancelled. -/
theorem C5_counterexample :
    (runEvents demoSections
      [TEvent.enterCitation "src_1" "overview", TEvent.leaveCitation,
       TEvent.clickOutside]).visible = false
    ∧ (runEvents demoSections
      [TEvent.enterCitation "src_1" "overview", TEvent.leaveCitation,
       TEvent.clickOutside]).liveTimers.length = 1 := by decide

/-- C8: on hover of a placeholder whose source id does not resolve in
that placeholder's section, the controller stays hidden, appends a
diagnostic, and (being a total function) does not crash. -/
theorem C8_missing_source_suppressed (sections : SectionData) (s : TooltipState)
    (sourceId sectionKey : String)
    (hvis : s.visible = false)
    (hmiss : lookupSource sections sectionKey sourceId = none) :
    (showTooltip sections sourceId sectionKey s).visible = false
    ∧ (showTooltip sections sourceId sectionKey s).diagnostics
        = s.diagnostics ++ [warnMissing sourceId sectionKey] := by
  unfold showTooltip
  rw [hmiss]
  dsimp only
  exact ⟨(cancelHideTimer_visible s).trans hvis,
         by rw [cancelHideTimer_diagnostics]⟩

/-- Witness for C8: hovering `src_9`, which is absent from the demo
section's sources, keeps the popover hidden and records the warning. -/
theorem C8_missing_source_witness :
    (showTooltip demoSections "src_9" "overview" initTooltipState).visible = false
    ∧ (showTooltip demoSections "src_9" "overview" initTooltipState).diagnostics
        = [warnMissing "src_9" "overview"] := by
  have h := C8_missing_source_suppressed demoSections initTooltipState "src_9" "overview"
    (by decide) (by decide)
  exact ⟨h.1, h.2⟩

/-- C10 (amended): `pinTooltip` sets the pinned flag unconditionally
(whatever the current state) and cancels the timer referenced by
`hideTimeout`; no handler except the outside click clears the pinned
flag; but a stale timer not referenced by `hideTimeout` survives pinning
and its expiry still removes the popover. -/
theorem C10_pin_unconditional (sections : SectionData) (s s2 : TooltipState)
    (e : TEvent) (id : Nat)
    (hpin : s2.pinned = true) (hne : e ≠ TEvent.clickOutside)
    (hh : s.hideTimeout = some id) :
    (pinTooltip s).pinned = true
    ∧ (pinTooltip s).liveTimers = s.liveTimers.filter (fun t => t.1 ≠ id)
    ∧ (step sections s2 e).pinned = true := by
  refine ⟨rfl, ?_, ?_⟩
  · show (cancelHideTimer s).liveTimers = _
    unfold cancelHideTimer
    rw [hh]
  · cases e with
    | enterCitation sourceId sectionKey =>
      rw [step, showTooltip_pinned, hpin]
    | leaveCitation =>
      show (startHideTimer s2).pinned = true
      unfold startHideTimer
      rw [if_pos hpin]
      exact hpin
    | enterTooltip =>
      show (cancelHideTimer s2).pinned = true
      rw [cancelHideTimer_pinned, hpin]
    | leaveTooltip =>
      show (startHideTimer s2).pinned = true
      unfold startHideTimer
      rw [if_pos hpin]
      exact hpin
    | clickCitation => rfl
    | clickTooltipInside => exact hpin
    | clickOutside => exact absurd rfl hne
    | fire id2 =>
      show (timerFire s2 id2).pinned = true
      rw [timerFire_pinned, hpin]

/-- Witness for the amended C10. -/
theorem C10_pin_witness :
    (pinTooltip demoStackedState).pinned = true
    ∧ (pinTooltip demoStackedState).liveTimers = [(1, 300)]
    ∧ (step demoSections demoPinnedState TEvent.leaveCitation).pinned = true := by
  have h := C10_pin_unconditional demoSections demoStackedState demoPinnedState
    TEvent.leaveCitation 2 (by decide) (by decide) (by decide)
  refine ⟨h.1, ?_, h.2.2⟩
  rw [h.2.1]
  decide

/-- Counterexample to C10 as stated: with two stacked timers, pinning
cancels only the most recent; the stale timer's expiry removes the
popover even though the pinned flag is set. -/
theorem C10_counterexample :
    (runEvents demoSections
      [TEvent.enterCitation "src_1" "overview", TEvent.leaveCitation,
       TEvent.leaveTooltip, TEvent.clickCitation, TEvent.fire 1]).pinned = true
    ∧ (runEvents demoSections
      [TEvent.enterCitation "src_1" "overview", TEvent.leaveCitation,
       TEvent.leaveTooltip, TEvent.clickCitation, TEvent.fire 1]).visible = false := by
  decide

/-! ### Viewport positioner claims -/

/-- C9 (amended): for a nonnegative-size popover whose default right
placement would overflow the right edge, and an anchor that lies within
the viewport with room for the popover on its left, the positioner
flips: the output x is `rectLeft - width - 12`, strictly left of the
anchor, at least the padding, and the popover does not overflow the
right edge.  The y output is always at least the padding; if the
vertical placement fits it is the anchor top (when that is at least the
padding), and if it overflows the bottom and the popover fits vertically
it is clamped to `vh - height - 12`, keeping the popover inside the
bottom edge. -/
theorem C9_positioner_flip_and_clamp
    (rectLeft rectTop rectRight tw th vw vh : Int)
    (htw : 0 ≤ tw) (hth : 0 ≤ th)
    (hflip : rectRight + 12 + tw > vw - 12)
    (hfit : tw + 24 ≤ rectLeft)
    (hanchor : rectLeft ≤ vw) :
    (positionTooltipNear rectLeft rectTop rectRight tw th vw vh).1
        = rectLeft - tw - 12
    ∧ (positionTooltipNear rectLeft rectTop rectRight tw th vw vh).1 < rectLeft
    ∧ 12 ≤ (positionTooltipNear rectLeft rectTop rectRight tw th vw vh).1
    ∧ (positionTooltipNear rectLeft rectTop rectRight tw th vw vh).1 + tw ≤ vw - 12
    ∧ 12 ≤ (positionTooltipNear rectLeft rectTop rectRight tw th vw vh).2
    ∧ (rectTop + th ≤ vh - 12 → 12 ≤ rectTop →
        (positionTooltipNear rectLeft rectTop rectRight tw th vw vh).2 = rectTop)
    ∧ (vh - 12 < rectTop + th → th + 24 ≤ vh →
        (positionTooltipNear rectLeft rectTop rectRight tw th vw vh).2 = vh - th - 12
        ∧ (positionTooltipNear rectLeft rectTop rectRight tw th vw vh).2 + th
            ≤ vh - 12) := by
  have hx : (positionTooltipNear rectLeft rectTop rectRight tw th vw vh).1
      = rectLeft - tw - 12 := by
    unfold positionTooltipNear
    dsimp only
    rw [if_pos (by omega)]
    exact max_eq_right (by omega)
  have hymin : 12 ≤ (positionTooltipNear rectLeft rectTop rectRight tw th vw vh).2 := by
    unfold positionTooltipNear
    dsimp only
    exact le_max_left _ _
  refine ⟨hx, by omega, by omega, by omega, hymin, ?_, ?_⟩
  · intro hv htop
    unfold positionTooltipNear
    dsimp only
    rw [if_neg (by omega)]
    exact max_eq_right htop
  · intro hv hroom
    have hy : (positionTooltipNear rectLeft rectTop rectRight tw th vw vh).2
        = vh - th - 12 := by
      unfold positionTooltipNear
      dsimp only
      rw [if_pos (by omega)]
      exact max_eq_right (by omega)
    exact ⟨hy, by omega⟩

/-- Witness for the amended C9: anchor at x∈[500,510], y=50 in a
640×480 viewport with a 200×30 popover: flipped to x = 288, y = 50. -/
theorem C9_positioner_witness :
    (positionTooltipNear 500 50 510 200 30 640 480).1 = 288
    ∧ (positionTooltipNear 500 50 510 200 30 640 480).1 < 500
    ∧ (positionTooltipNear 500 50 510 200 30 640 480).2 = 50 := by
  have h := C9_positioner_flip_and_clamp 500 50 510 200 30 640 480
    (by decide) (by decide) (by decide) (by decide) (by decide)
  refine ⟨?_, h.2.1, h.2.2.2.2.2.1 (by decide) (by decide)⟩
  rw [h.1]
  decide

/-- Counterexample to C9 as stated: with a popover wider than the whole
viewport (width 200, viewport 100) and the anchor at the left edge, the
flip goes off-screen and the final clamp returns x = 12, which is not
left of the anchor (rectLeft = 0) and still overflows the right edge. -/
theorem C9_counterexample :
    positionTooltipNear 0 0 10 200 10 100 100 = (12, 12)
    ∧ ¬ ((positionTooltipNear 0 0 10 200 10 100 100).1 < 0)
    ∧ 100 < (positionTooltipNear 0 0 10 200 10 100 100).1 + 200 := by
  refine ⟨?_, by decide, by decide⟩
  decide

/-! ### Pass-identity lemmas -/

/-- Letters and the space character (the text alphabet used in the
structured-input theorems). -/
def plainChars : List Char :=
  " abcdefghijklmnopqrstuvwxyzABCDEFGHIJKLMNOPQRSTUVWXYZ".data

/-- Letters only. -/
def alphaChars : List Char :=
  "abcdefghijklmnopqrstuvwxyzABCDEFGHIJKLMNOPQRSTUVWXYZ".data

theorem alphaChars_sub_plainChars : ∀ c ∈ alphaChars, c ∈ plainChars := by decide

theorem plainChars_facts :
    ∀ c ∈ plainChars, c ≠ '#' ∧ c ≠ '*' ∧ c ≠ '\n' ∧ c ≠ '|' ∧ c ≠ '<' ∧ c ≠ '[' ∧
      c.isDigit = false := by decide

theorem alphaChars_facts :
    ∀ c ∈ alphaChars, c.isWhitespace = false ∧ c ≠ '"' := by decide

theorem mem_splitLines {cs : List Char} {line : List Char}
    (hl : line ∈ splitLines cs) : ∀ c ∈ line, c ∈ cs := by
  induction cs generalizing line with
  | nil =>
    intro c hc
    simp only [splitLines, List.mem_singleton] at hl
    subst hl
    cases hc
  | cons c0 rest ih =>
    intro c hc
    rw [splitLines] at hl
    split at hl
    · cases hl with
      | head => cases hc
      | tail _ h2 => exact List.mem_cons_of_mem c0 (ih h2 c hc)
    · rcases hsp : splitLines rest with _ | ⟨l, ls⟩
      · exact absurd hsp (splitLines_ne_nil rest)
      · rw [hsp] at hl
        cases hl with
        | head =>
          cases hc with
          | head => exact List.mem_cons_self c0 rest
          | tail _ h3 =>
            refine List.mem_cons_of_mem c0 (ih ?_ c h3)
            rw [hsp]
            exact List.mem_cons_self l ls
        | tail _ h2 =>
          refine List.mem_cons_of_mem c0 (ih ?_ c hc)
          rw [hsp]
          exact List.mem_cons_of_mem l h2

theorem h3Line_id {line : List Char} (h : ∀ c ∈ line, c ≠ '#') : h3Line line = line := by
  unfold h3Line
  split
  · exact absurd rfl (h '#' (by simp))
  · rfl

theorem h2Line_id {line : List Char} (h : ∀ c ∈ line, c ≠ '#') : h2Line line = line := by
  unfold h2Line
  split
  · exact absurd rfl (h '#' (by simp))
  · rfl

theorem h1Line_id {line : List Char} (h : ∀ c ∈ line, c ≠ '#') : h1Line line = line := by
  unfold h1Line
  split
  · exact absurd rfl (h '#' (by simp))
  · rfl

theorem headersPass_id {cs : List Char} (h : ∀ c ∈ cs, c ≠ '#') :
    headersPass cs = cs := by
  unfold headersPass
  rw [lineMap_id h3Line cs (fun line hl => h3Line_id (fun c hc => h c (mem_splitLines hl c hc))),
    lineMap_id h2Line cs (fun line hl => h2Line_id (fun c hc => h c (mem_splitLines hl c hc))),
    lineMap_id h1Line cs (fun line hl => h1Line_id (fun c hc => h c (mem_splitLines hl c hc)))]

theorem afterTwoStars_none {c : Char} {cs : List Char} (h : c ≠ '*') :
    afterTwoStars (c :: cs) = none := by
  unfold afterTwoStars
  split
  · rename_i heq
    injection heq with h1 _
    exact absurd h1 h
  · rfl

theorem afterOneStar_none {c : Char} {cs : List Char} (h : c ≠ '*') :
    afterOneStar (c :: cs) = none := by
  unfold afterOneStar
  split
  · rename_i heq
    injection heq with h1 _
    exact absurd h1 h
  · rfl

theorem boldPass_id {cs : List Char} (h : ∀ c ∈ cs, c ≠ '*') : boldPass cs = cs := by
  induction cs with
  | nil => rfl
  | cons c rest ih =>
    rw [boldPass_no_open (afterTwoStars_none (h c (by simp))),
      ih (fun x hx => h x (List.mem_cons_of_mem c hx))]

theorem italicPass_id {cs : List Char} (h : ∀ c ∈ cs, c ≠ '*') : italicPass cs = cs := by
  induction cs with
  | nil => rfl
  | cons c rest ih =>
    rw [italicPass_no_open (afterOneStar_none (h c (by simp))),
      ih (fun x hx => h x (List.mem_cons_of_mem c hx))]

theorem bulletLine_id {line : List Char} (h : ∀ c ∈ line, c ≠ '*') :
    bulletLine line = line := by
  unfold bulletLine
  split
  · exact absurd rfl (h '*' (by simp))
  · rfl

theorem bulletPass_id {cs : List Char} (h : ∀ c ∈ cs, c ≠ '*') : bulletPass cs = cs :=
  lineMap_id bulletLine cs
    (fun line hl => bulletLine_id (fun c hc => h c (mem_splitLines hl c hc)))

theorem numberedLine_id {line : List Char}
    (h : ∀ c r, line = c :: r → c.isDigit = false) : numberedLine line = line := by
  unfold numberedLine
  cases line with
  | nil => rfl
  | cons c r =>
    rw [show takeDigits (c :: r) = ([], c :: r) by
      unfold takeDigits
      rw [if_neg (by rw [h c r rfl]; exact Bool.false_ne_true)]]

theorem numberedPass_id {cs : List Char}
    (h : ∀ line ∈ splitLines cs, ∀ c r, line = c :: r → c.isDigit = false) :
    numberedPass cs = cs :=
  lineMap_id numberedLine cs (fun line hl => numberedLine_id (h line hl))

theorem matchTable_none_of_head {c : Char} {cs : List Char} (h : c ≠ '|') :
    matchTable (c :: cs) = none := by
  unfold matchTable
  split
  · rename_i heq
    injection heq with h1 _
    exact absurd h1 h
  · rfl

theorem tablePass_id {cs : List Char} (h : ∀ c ∈ cs, c ≠ '|') : tablePass cs = cs := by
  induction cs with
  | nil => rfl
  | cons c rest ih =>
    rw [tablePass_cons_none (matchTable_none_of_head (h c (by simp))),
      ih (fun x hx => h x (List.mem_cons_of_mem c hx))]

/-- No occurrence of `'<'` immediately followed by `'l'` (so no `<li>`
can occur). -/
def noLtL : List Char → Bool
  | [] => true
  | [_] => true
  | c1 :: c2 :: rest => !(c1 = '<' && c2 = 'l') && noLtL (c2 :: rest)

theorem noLtL_tail {c : Char} {rest : List Char} (h : noLtL (c :: rest) = true) :
    noLtL rest = true := by
  cases rest with
  | nil => rfl
  | cons c2 r =>
    rw [noLtL, Bool.and_eq_true] at h
    exact h.2

theorem startsWithL_li_false {cs : List Char} (h : noLtL cs = true) :
    startsWithL "<li>".data cs = false := by
  cases cs with
  | nil => rfl
  | cons c1 rest =>
    cases rest with
    | nil =>
      show (decide ('<' = c1) && startsWithL "li>".data []) = false
      simp [startsWithL]
    | cons c2 r =>
      rw [noLtL, Bool.and_eq_true, Bool.not_eq_true', Bool.and_eq_false_iff] at h
      show (decide ('<' = c1) && (decide ('l' = c2) && startsWithL "i>".data r)) = false
      rcases h.1 with h1 | h1
      · rw [show decide ('<' = c1) = false by
          simp only [decide_eq_false_iff_not]
          intro heq
          rw [← heq] at h1
          simp at h1]
        rfl
      · rw [show decide ('l' = c2) = false by
          simp only [decide_eq_false_iff_not]
          intro heq
          rw [← heq] at h1
          simp at h1]
        simp

theorem matchLiUnit_none_of_noLtL {cs : List Char} (h : noLtL cs = true) :
    matchLiUnit cs = none := by
  unfold matchLiUnit
  rw [startsWithL_li_false h]
  rfl

theorem ulWrapPass_id {cs : List Char} (h : noLtL cs = true) : ulWrapPass cs = cs := by
  induction cs with
  | nil => rfl
  | cons c rest ih =>
    rw [ulWrapPass_cons_none (matchLiRun_eq_none (matchLiUnit_none_of_noLtL h)),
      ih (noLtL_tail h)]

/-- `noLtL` together with "does not end in `'<'`": safe to append. -/
def safeLt (cs : List Char) : Bool := noLtL cs && !(cs.getLast? = some '<')

theorem safeLt_noLtL {cs : List Char} (h : safeLt cs = true) : noLtL cs = true := by
  rw [safeLt, Bool.and_eq_true] at h
  exact h.1

theorem safeLt_last {cs : List Char} (h : safeLt cs = true) : cs.getLast? ≠ some '<' := by
  rw [safeLt, Bool.and_eq_true, Bool.not_eq_true', decide_eq_false_iff_not] at h
  exact h.2

theorem noLtL_append {x y : List Char} (hx : noLtL x = true)
    (hlast : x.getLast? ≠ some '<') (hy : noLtL y = true) : noLtL (x ++ y) = true := by
  induction x with
  | nil => simpa using hy
  | cons c rest ih =>
    cases rest with
    | nil =>
      simp only [List.getLast?_singleton, ne_eq, Option.some.injEq] at hlast
      cases y with
      | nil => rfl
      | cons c2 r =>
        show noLtL (c :: c2 :: r) = true
        rw [noLtL, Bool.and_eq_true]
        refine ⟨?_, hy⟩
        simp only [Bool.not_eq_true', Bool.and_eq_false_iff, decide_eq_false_iff_not]
        exact Or.inl hlast
    | cons c2 r =>
      rw [noLtL, Bool.and_eq_true] at hx
      have hlast2 : (c2 :: r).getLast? ≠ some '<' := by
        rwa [List.getLast?_cons_cons] at hlast
      have happ := ih hx.2 hlast2
      have hform : (c :: c2 :: r) ++ y = c :: c2 :: (r ++ y) := by simp
      rw [hform, noLtL, Bool.and_eq_true]
      refine ⟨hx.1, ?_⟩
      simpa using happ

theorem safeLt_append {x y : List Char} (hx : safeLt x = true) (hy : safeLt y = true) :
    safeLt (x ++ y) = true := by
  rw [safeLt, Bool.and_eq_true]
  constructor
  · exact noLtL_append (safeLt_noLtL hx) (safeLt_last hx) (safeLt_noLtL hy)
  · cases y with
    | nil =>
      rw [List.append_nil]
      simp only [Bool.not_eq_true', decide_eq_false_iff_not]
      exact safeLt_last hx
    | cons c r =>
      rcases hg : (c :: r).getLast? with _ | a
      · rw [List.getLast?_eq_none_iff] at hg
        cases hg
      · rw [List.getLast?_append, hg, Option.or_some]
        simp only [Bool.not_eq_true', decide_eq_false_iff_not]
        rw [← hg]
        exact safeLt_last hy

theorem safeLt_of_no_lt {cs : List Char} (h : ∀ c ∈ cs, c ≠ '<') : safeLt cs = true := by
  rw [safeLt, Bool.and_eq_true]
  constructor
  · induction cs with
    | nil => rfl
    | cons c rest ih =>
      cases rest with
      | nil => rfl
      | cons c2 r =>
        rw [noLtL, Bool.and_eq_true]
        refine ⟨?_, ih (fun x hx => h x (List.mem_cons_of_mem c hx))⟩
        simp only [Bool.not_eq_true', Bool.and_eq_false_iff, decide_eq_false_iff_not]
        exact Or.inl (h c (by simp))
  · simp only [Bool.not_eq_true', decide_eq_false_iff_not]
    intro hl
    exact h '<' (List.mem_of_getLast?_eq_some hl) rfl


/-! ### Line and paragraph structure lemmas -/

theorem splitLines_no_newline {cs : List Char} (h : ∀ c ∈ cs, c ≠ '\n') :
    splitLines cs = [cs] := by
  induction cs with
  | nil => rfl
  | cons c rest ih =>
    rw [splitLines, if_neg (h c (by simp)), ih (fun x hx => h x (List.mem_cons_of_mem c hx))]

theorem splitLines_append_newline {x y : List Char} (h : ∀ c ∈ x, c ≠ '\n') :
    splitLines (x ++ '\n' :: y) = x :: splitLines y := by
  induction x with
  | nil =>
    rw [List.nil_append, splitLines, if_pos rfl]
  | cons c rest ih =>
    rw [List.cons_append, splitLines, if_neg (h c (by simp)),
      ih (fun z hz => h z (List.mem_cons_of_mem c hz))]

theorem splitLines_joinLines {pieces : List (List Char)} (hne : pieces ≠ [])
    (h : ∀ p ∈ pieces, ∀ c ∈ p, c ≠ '\n') :
    splitLines (joinLines pieces) = pieces := by
  induction pieces with
  | nil => exact absurd rfl hne
  | cons p rest ih =>
    cases rest with
    | nil =>
      rw [joinLines]
      exact splitLines_no_newline (h p (by simp))
    | cons p2 rest2 =>
      rw [joinLines, splitLines_append_newline (h p (by simp)),
        ih (by simp) (fun q hq => h q (List.mem_cons_of_mem p hq))]

theorem joinLines_head {p : List Char} {pieces : List (List Char)} :
    p ≠ [] → (joinLines (p :: pieces)).head? = p.head? := by
  intro hp
  cases pieces with
  | nil => rw [joinLines]
  | cons p2 rest =>
    rw [joinLines]
    cases p with
    | nil => exact absurd rfl hp
    | cons c r => rfl

theorem joinLines_ne_nil {p : List Char} {pieces : List (List Char)} (hp : p ≠ []) :
    joinLines (p :: pieces) ≠ [] := by
  cases pieces with
  | nil => rw [joinLines]; exact hp
  | cons p2 rest =>
    rw [joinLines]
    cases p with
    | nil => exact absurd rfl hp
    | cons c r => simp

theorem joinLines_getLast {pieces : List (List Char)} {p : List Char}
    (hmem : ∀ q ∈ pieces, q ≠ []) :
    pieces.getLast? = some p → (joinLines pieces).getLast? = p.getLast? := by
  induction pieces with
  | nil => intro h; cases h
  | cons q rest ih =>
    intro hlast
    cases rest with
    | nil =>
      rw [List.getLast?_singleton] at hlast
      injection hlast with h2
      subst h2
      rw [joinLines]
    | cons q2 rest2 =>
      rw [List.getLast?_cons_cons] at hlast
      have hne : joinLines (q2 :: rest2) ≠ [] :=
        joinLines_ne_nil (hmem q2 (by simp))
      have hstep : ('\n' :: joinLines (q2 :: rest2)).getLast?
          = (joinLines (q2 :: rest2)).getLast? := by
        cases hj : joinLines (q2 :: rest2) with
        | nil => exact absurd hj hne
        | cons d ds => rw [List.getLast?_cons_cons]
      rw [joinLines, List.getLast?_append, hstep,
        ih (fun r hr => hmem r (List.mem_cons_of_mem q hr)) hlast]
      cases hg : p.getLast? with
      | none =>
        rw [List.getLast?_eq_none_iff] at hg
        subst hg
        have h2 := List.mem_of_getLast?_eq_some hlast
        exact absurd rfl (hmem [] (List.mem_cons_of_mem q h2))
      | some a => rfl

theorem mem_joinLines {pieces : List (List Char)} {c : Char}
    (hc : c ∈ joinLines pieces) : c = '\n' ∨ ∃ p ∈ pieces, c ∈ p := by
  induction pieces with
  | nil => cases hc
  | cons p rest ih =>
    cases rest with
    | nil =>
      rw [joinLines] at hc
      exact Or.inr ⟨p, by simp, hc⟩
    | cons p2 rest2 =>
      rw [joinLines] at hc
      rcases List.mem_append.mp hc with h | h
      · exact Or.inr ⟨p, by simp, h⟩
      · cases h with
        | head => exact Or.inl rfl
        | tail _ h2 =>
          rcases ih h2 with h3 | ⟨q, hq, hcq⟩
          · exact Or.inl h3
          · exact Or.inr ⟨q, List.mem_cons_of_mem p hq, hcq⟩

/-- No two adjacent newlines (no `\n\n` separator occurs). -/
def noNN : List Char → Bool
  | [] => true
  | [_] => true
  | c1 :: c2 :: rest => !(c1 = '\n' && c2 = '\n') && noNN (c2 :: rest)

theorem noNN_of_no_newline {cs : List Char} (h : ∀ c ∈ cs, c ≠ '\n') :
    noNN cs = true := by
  induction cs with
  | nil => rfl
  | cons c rest ih =>
    cases rest with
    | nil => rfl
    | cons c2 r =>
      rw [noNN, Bool.and_eq_true]
      refine ⟨?_, ih (fun x hx => h x (List.mem_cons_of_mem c hx))⟩
      simp only [Bool.not_eq_true', Bool.and_eq_false_iff, decide_eq_false_iff_not]
      exact Or.inl (h c (by simp))

theorem noNN_append {x ys : List Char} (hx : ∀ c ∈ x, c ≠ '\n') (hy : noNN ys = true) :
    noNN (x ++ ys) = true := by
  induction x with
  | nil => simpa using hy
  | cons c rest ih =>
    have hrec := ih (fun z hz => hx z (List.mem_cons_of_mem c hz))
    cases hr : rest ++ ys with
    | nil =>
      show noNN (c :: (rest ++ ys)) = true
      rw [hr]
      rfl
    | cons d ds =>
      show noNN (c :: rest ++ ys) = true
      rw [show c :: rest ++ ys = c :: (rest ++ ys) from rfl, hr, noNN, Bool.and_eq_true]
      refine ⟨?_, by rw [← hr]; exact hrec⟩
      simp only [Bool.not_eq_true', Bool.and_eq_false_iff, decide_eq_false_iff_not]
      exact Or.inl (hx c (by simp))

theorem noNN_joinLines {pieces : List (List Char)}
    (h : ∀ p ∈ pieces, p ≠ [] ∧ ∀ c ∈ p, c ≠ '\n') :
    noNN (joinLines pieces) = true := by
  induction pieces with
  | nil => rfl
  | cons p rest ih =>
    cases rest with
    | nil =>
      rw [joinLines]
      exact noNN_of_no_newline (h p (by simp)).2
    | cons p2 rest2 =>
      rw [joinLines]
      refine noNN_append (h p (by simp)).2 ?_
      have hrec := ih (fun q hq => h q (List.mem_cons_of_mem p hq))
      have hhead : (joinLines (p2 :: rest2)).head? = p2.head? :=
        joinLines_head (h p2 (by simp)).1
      cases hj : joinLines (p2 :: rest2) with
      | nil => rfl
      | cons d ds =>
        rw [noNN, Bool.and_eq_true]
        refine ⟨?_, by rw [← hj]; exact hrec⟩
        simp only [Bool.not_eq_true', Bool.and_eq_false_iff, decide_eq_false_iff_not]
        refine Or.inr ?_
        rw [hj] at hhead
        cases p2 with
        | nil => exact absurd rfl (h [] (by simp)).1
        | cons e es =>
          injection hhead with h2
          intro hd
          exact (h (e :: es) (by simp)).2 e (by simp) (by rw [← h2, hd])

theorem splitOnNN_no_nn {cs : List Char} (h : noNN cs = true) :
    splitOnNN cs = [cs] := by
  induction cs with
  | nil => rfl
  | cons c rest ih =>
    cases rest with
    | nil => rfl
    | cons c2 r =>
      rw [noNN, Bool.and_eq_true] at h
      rw [splitOnNN, if_neg (by
        simp only [Bool.not_eq_true', Bool.and_eq_false_iff,
          decide_eq_false_iff_not] at h
        rcases h.1 with h1 | h1
        · exact fun hp => h1 hp.1
        · exact fun hp => h1 hp.2), ih h.2]

theorem splitOnNN_append {x y : List Char} (hx : ∀ c ∈ x, c ≠ '\n') :
    splitOnNN (x ++ '\n' :: '\n' :: y) = x :: splitOnNN y := by
  induction x with
  | nil =>
    rw [List.nil_append, splitOnNN, if_pos ⟨rfl, rfl⟩]
  | cons c rest ih =>
    have hrec := ih (fun z hz => hx z (List.mem_cons_of_mem c hz))
    cases hr : rest ++ '\n' :: '\n' :: y with
    | nil => simp at hr
    | cons d ds =>
      rw [show (c :: rest) ++ '\n' :: '\n' :: y = c :: (rest ++ '\n' :: '\n' :: y)
          from rfl, hr, splitOnNN]
      rw [if_neg (by
        intro hp
        exact hx c (by simp) hp.1)]
      rw [← hr, hrec]

theorem trimLeft_id {cs : List Char} (h : ∀ c ∈ cs, c.isWhitespace = false) :
    trimLeft cs = cs := by
  cases cs with
  | nil => rfl
  | cons c rest =>
    rw [trimLeft, if_neg (by rw [h c (by simp)]; exact Bool.false_ne_true)]

theorem trimLeft_id_of_head {c : Char} {rest : List Char}
    (h : c.isWhitespace = false) : trimLeft (c :: rest) = c :: rest := by
  rw [trimLeft, if_neg (by rw [h]; exact Bool.false_ne_true)]

theorem jsTrim_id_of_ends {cs : List Char} {c1 c2 : Char}
    (hh : cs.head? = some c1) (h1 : c1.isWhitespace = false)
    (hl : cs.getLast? = some c2) (h2 : c2.isWhitespace = false) :
    jsTrim cs = cs := by
  have hrev : cs.reverse.head? = some c2 := by
    rw [List.head?_reverse]
    exact hl
  have hstep : trimLeft cs.reverse = cs.reverse := by
    cases hr : cs.reverse with
    | nil => rfl
    | cons e es =>
      rw [hr] at hrev
      injection hrev with he
      subst he
      exact trimLeft_id_of_head h2
  rw [jsTrim, hstep, List.reverse_reverse]
  cases cs with
  | nil => rfl
  | cons d rest =>
    injection hh with hd
    subst hd
    exact trimLeft_id_of_head h1

theorem jsTrim_id_of_no_ws {cs : List Char} (h : ∀ c ∈ cs, c.isWhitespace = false) :
    jsTrim cs = cs := by
  have hstep : trimLeft cs.reverse = cs.reverse :=
    trimLeft_id (fun c hc => h c (List.mem_reverse.mp hc))
  rw [jsTrim, hstep, List.reverse_reverse, trimLeft_id h]


/-! ### Plain-paragraph inputs and the paragraph-wrap shape -/

/-- Markup-free paragraphs joined with the blank-line separator
`\n\n` — the input class of the idempotence claim. -/
def plainParas : List (List Char) → List Char
  | [] => []
  | [p] => p
  | p :: p2 :: rest => p ++ '\n' :: '\n' :: plainParas (p2 :: rest)

/-- The `<p>…</p>` wrapper the paragraph pass emits for a plain chunk. -/
def pWrap (p : List Char) : List Char := "<p>".data ++ p ++ "</p>".data

theorem mem_plainParas {chunks : List (List Char)} {c : Char}
    (hc : c ∈ plainParas chunks) : c = '\n' ∨ ∃ p ∈ chunks, c ∈ p := by
  induction chunks with
  | nil => cases hc
  | cons p rest ih =>
    cases rest with
    | nil =>
      rw [plainParas] at hc
      exact Or.inr ⟨p, by simp, hc⟩
    | cons p2 rest2 =>
      rw [plainParas] at hc
      rcases List.mem_append.mp hc with h | h
      · exact Or.inr ⟨p, by simp, h⟩
      · cases h with
        | head => exact Or.inl rfl
        | tail _ h2 =>
          cases h2 with
          | head => exact Or.inl rfl
          | tail _ h3 =>
            rcases ih h3 with h4 | ⟨q, hq, hcq⟩
            · exact Or.inl h4
            · exact Or.inr ⟨q, List.mem_cons_of_mem p hq, hcq⟩

theorem splitOnNN_plainParas {chunks : List (List Char)} (hne : chunks ≠ [])
    (h : ∀ p ∈ chunks, ∀ c ∈ p, c ≠ '\n') :
    splitOnNN (plainParas chunks) = chunks := by
  induction chunks with
  | nil => exact absurd rfl hne
  | cons p rest ih =>
    cases rest with
    | nil =>
      rw [plainParas]
      exact splitOnNN_no_nn (noNN_of_no_newline (h p (by simp)))
    | cons p2 rest2 =>
      rw [plainParas, splitOnNN_append (h p (by simp)),
        ih (by simp) (fun q hq => h q (List.mem_cons_of_mem p hq))]

theorem startsWithL_lt_false {c : Char} {r pat : List Char} (h : c ≠ '<') :
    startsWithL ('<' :: pat) (c :: r) = false := by
  rw [startsWithL, Bool.and_eq_false_iff]
  left
  simp only [decide_eq_false_iff_not]
  exact fun h2 => h h2.symm

theorem startsWithL_second_false {a b c d : Char} {pat r : List Char} (h : b ≠ d) :
    startsWithL (a :: b :: pat) (c :: d :: r) = false := by
  rw [startsWithL, show startsWithL (b :: pat) (d :: r)
      = ((b = d : Bool) && startsWithL pat r) from rfl]
  simp only [Bool.and_eq_false_iff, decide_eq_false_iff_not]
  right
  left
  exact h

theorem paraChunk_alpha {p : List Char} (hp : p ≠ [])
    (h : ∀ c ∈ p, c ∈ alphaChars) : paraChunk p = pWrap p := by
  have htrim : jsTrim p = p :=
    jsTrim_id_of_no_ws (fun c hc => (alphaChars_facts c (h c hc)).1)
  show (if jsTrim p = [] then []
    else if startsWithL "<h".data (jsTrim p) || startsWithL "<ul".data (jsTrim p) ||
        startsWithL "<ol".data (jsTrim p) || startsWithL "<li".data (jsTrim p) ||
        startsWithL "<table".data (jsTrim p) then jsTrim p
    else "<p>".data ++ jsTrim p ++ "</p>".data) = pWrap p
  rw [htrim, if_neg hp]
  cases p with
  | nil => exact absurd rfl hp
  | cons c r =>
    have hc : c ≠ '<' :=
      (plainChars_facts c (alphaChars_sub_plainChars c (h c (by simp)))).2.2.2.2.1
    rw [show ("<h".data : List Char) = '<' :: ['h'] from rfl,
      show ("<ul".data : List Char) = '<' :: ['u', 'l'] from rfl,
      show ("<ol".data : List Char) = '<' :: ['o', 'l'] from rfl,
      show ("<li".data : List Char) = '<' :: ['l', 'i'] from rfl,
      show ("<table".data : List Char) = '<' :: ['t', 'a', 'b', 'l', 'e'] from rfl,
      startsWithL_lt_false hc, startsWithL_lt_false hc, startsWithL_lt_false hc,
      startsWithL_lt_false hc, startsWithL_lt_false hc]
    rfl

theorem paraChunk_pTag {t : List Char} (hlast : ('<' :: 'p' :: t).getLast? = some '>') :
    paraChunk ('<' :: 'p' :: t) = pWrap ('<' :: 'p' :: t) := by
  have htrim : jsTrim ('<' :: 'p' :: t) = '<' :: 'p' :: t :=
    jsTrim_id_of_ends rfl (by decide) hlast (by decide)
  show (if jsTrim ('<' :: 'p' :: t) = [] then []
    else if startsWithL "<h".data (jsTrim ('<' :: 'p' :: t)) ||
        startsWithL "<ul".data (jsTrim ('<' :: 'p' :: t)) ||
        startsWithL "<ol".data (jsTrim ('<' :: 'p' :: t)) ||
        startsWithL "<li".data (jsTrim ('<' :: 'p' :: t)) ||
        startsWithL "<table".data (jsTrim ('<' :: 'p' :: t)) then jsTrim ('<' :: 'p' :: t)
    else "<p>".data ++ jsTrim ('<' :: 'p' :: t) ++ "</p>".data) = pWrap ('<' :: 'p' :: t)
  rw [htrim, if_neg (by simp)]
  rw [show ("<h".data : List Char) = '<' :: 'h' :: [] from rfl,
    show ("<ul".data : List Char) = '<' :: 'u' :: ['l'] from rfl,
    show ("<ol".data : List Char) = '<' :: 'o' :: ['l'] from rfl,
    show ("<li".data : List Char) = '<' :: 'l' :: ['i'] from rfl,
    show ("<table".data : List Char) = '<' :: 't' :: ['a', 'b', 'l', 'e'] from rfl,
    startsWithL_second_false (by decide), startsWithL_second_false (by decide),
    startsWithL_second_false (by decide), startsWithL_second_false (by decide),
    startsWithL_second_false (by decide)]
  rfl

theorem pWrap_ne_nil {p : List Char} : pWrap p ≠ [] := by
  rw [pWrap]
  simp

theorem pWrap_chars {p : List Char} (hp : ∀ c ∈ p, c ∈ alphaChars) :
    ∀ c ∈ pWrap p, c ≠ '#' ∧ c ≠ '*' ∧ c ≠ '|' ∧ c ≠ '\n' := by
  intro c hc
  rw [pWrap] at hc
  rcases List.mem_append.mp hc with h1 | h1
  · rcases List.mem_append.mp h1 with h2 | h2
    · have h3 : c = '<' ∨ c = 'p' ∨ c = '>' := by
        rw [show ("<p>".data : List Char) = ['<', 'p', '>'] from rfl] at h2
        simpa using h2
      rcases h3 with h4 | h4 | h4 <;> subst h4 <;>
        exact ⟨by decide, by decide, by decide, by decide⟩
    · have hpc := plainChars_facts c (alphaChars_sub_plainChars c (hp c h2))
      exact ⟨hpc.1, hpc.2.1, hpc.2.2.2.1, hpc.2.2.1⟩
  · have h3 : c = '<' ∨ c = '/' ∨ c = 'p' ∨ c = '>' := by
      rw [show ("</p>".data : List Char) = ['<', '/', 'p', '>'] from rfl] at h1
      simpa using h1
    rcases h3 with h4 | h4 | h4 | h4 <;> subst h4 <;>
      exact ⟨by decide, by decide, by decide, by decide⟩

theorem pWrap_safeLt {p : List Char} (hp : ∀ c ∈ p, c ∈ alphaChars) :
    safeLt (pWrap p) = true := by
  rw [pWrap]
  exact safeLt_append (safeLt_append (by decide) (safeLt_of_no_lt (fun c hc =>
    (plainChars_facts c (alphaChars_sub_plainChars c (hp c hc))).2.2.2.2.1)))
    (by decide)

theorem pWrap_getLast {p : List Char} : (pWrap p).getLast? = some '>' := by
  rw [pWrap, List.getLast?_append]
  rfl

theorem safeLt_joinLines {pieces : List (List Char)}
    (h : ∀ p ∈ pieces, safeLt p = true) : safeLt (joinLines pieces) = true := by
  induction pieces with
  | nil => rfl
  | cons p rest ih =>
    cases rest with
    | nil =>
      rw [joinLines]
      exact h p (by simp)
    | cons p2 rest2 =>
      rw [joinLines, show ('\n' :: joinLines (p2 :: rest2))
          = ['\n'] ++ joinLines (p2 :: rest2) from rfl]
      exact safeLt_append (h p (by simp)) (safeLt_append (by decide)
        (ih (fun q hq => h q (List.mem_cons_of_mem p hq))))

theorem joinLines_getLast_all {pieces : List (List Char)} {c : Char}
    (hne : pieces ≠ []) (h : ∀ p ∈ pieces, p.getLast? = some c) :
    (joinLines pieces).getLast? = some c := by
  induction pieces with
  | nil => exact absurd rfl hne
  | cons p rest ih =>
    cases rest with
    | nil =>
      rw [joinLines]
      exact h p (by simp)
    | cons p2 rest2 =>
      have hrec := ih (by simp) (fun q hq => h q (List.mem_cons_of_mem p hq))
      rw [joinLines, List.getLast?_append]
      have hstep : ('\n' :: joinLines (p2 :: rest2)).getLast?
          = (joinLines (p2 :: rest2)).getLast? := by
        cases hj : joinLines (p2 :: rest2) with
        | nil =>
          rw [hj] at hrec
          cases hrec
        | cons d ds => rw [List.getLast?_cons_cons]
      rw [hstep, hrec]
      rfl

theorem joinLines_cons_cons {c1 c2 : Char} {x : List Char} {rest : List (List Char)} :
    ∃ t, joinLines ((c1 :: c2 :: x) :: rest) = c1 :: c2 :: t := by
  cases rest with
  | nil => exact ⟨x, rfl⟩
  | cons r rs => exact ⟨x ++ '\n' :: joinLines (r :: rs), rfl⟩


/-- C3: for markup-free plain paragraphs the block pass is NOT
idempotent.  The first render wraps every chunk in `<p>…</p>` and joins
with `\n`; because the paragraph whitelist checks `<h`, `<ul`, `<ol`,
`<li`, `<table` but not `<p`, a second render wraps the whole output in
one more `<p>…</p>`, so the block structure differs. -/
theorem C3_render_not_idempotent_on_plain_paragraphs
    (chunks : List (List Char)) (hne : chunks ≠ [])
    (hch : ∀ p ∈ chunks, p ≠ [] ∧ ∀ c ∈ p, c ∈ alphaChars) :
    renderMarkdown (String.mk (plainParas chunks))
        = String.mk (joinLines (chunks.map pWrap))
      ∧ renderMarkdown (renderMarkdown (String.mk (plainParas chunks)))
        = String.mk ("<p>".data ++ joinLines (chunks.map pWrap) ++ "</p>".data)
      ∧ renderMarkdown (renderMarkdown (String.mk (plainParas chunks)))
        ≠ renderMarkdown (String.mk (plainParas chunks)) := by
  have hTmem : ∀ c ∈ plainParas chunks, c = '\n' ∨ c ∈ alphaChars := by
    intro c hc
    rcases mem_plainParas hc with h | ⟨p, hp, hcp⟩
    · exact Or.inl h
    · exact Or.inr ((hch p hp).2 c hcp)
  have hTfacts : ∀ c ∈ plainParas chunks, c ≠ '#' ∧ c ≠ '*' ∧ c ≠ '|' ∧ c ≠ '<' := by
    intro c hc
    rcases hTmem c hc with h | h
    · subst h
      exact ⟨by decide, by decide, by decide, by decide⟩
    · have hpc := plainChars_facts c (alphaChars_sub_plainChars c h)
      exact ⟨hpc.1, hpc.2.1, hpc.2.2.2.1, hpc.2.2.2.2.1⟩
  have hTnum : ∀ line ∈ splitLines (plainParas chunks),
      ∀ c r, line = c :: r → c.isDigit = false := by
    intro line hl c r hline
    have hcm : c ∈ plainParas chunks :=
      mem_splitLines hl c (by rw [hline]; exact List.mem_cons_self c r)
    rcases hTmem c hcm with h | h
    · subst h
      decide
    · exact (plainChars_facts c (alphaChars_sub_plainChars c h)).2.2.2.2.2.2
  have h1 : renderMarkdown (String.mk (plainParas chunks))
      = String.mk (joinLines (chunks.map pWrap)) := by
    rw [renderMarkdown]
    show String.mk (paragraphsPass (tablePass (numberedPass (ulWrapPass (bulletPass
      (italicPass (boldPass (headersPass (plainParas chunks))))))))) = _
    rw [headersPass_id (fun c hc => (hTfacts c hc).1),
      boldPass_id (fun c hc => (hTfacts c hc).2.1),
      italicPass_id (fun c hc => (hTfacts c hc).2.1),
      bulletPass_id (fun c hc => (hTfacts c hc).2.1),
      ulWrapPass_id (safeLt_noLtL (safeLt_of_no_lt (fun c hc => (hTfacts c hc).2.2.2))),
      numberedPass_id hTnum,
      tablePass_id (fun c hc => (hTfacts c hc).2.2.1),
      paragraphsPass,
      splitOnNN_plainParas hne (fun p hp c hc =>
        (plainChars_facts c (alphaChars_sub_plainChars c ((hch p hp).2 c hc))).2.2.1),
      List.map_congr_left (fun p hp => paraChunk_alpha (hch p hp).1 (hch p hp).2)]
  have hwprops : ∀ w ∈ chunks.map pWrap, w ≠ [] ∧ ∀ c ∈ w, c ≠ '\n' := by
    intro w hw
    rcases List.mem_map.mp hw with ⟨p, hp, hwp⟩
    subst hwp
    exact ⟨pWrap_ne_nil, fun c hc => (pWrap_chars ((hch p hp).2) c hc).2.2.2⟩
  have hmapne : chunks.map pWrap ≠ [] := by
    cases chunks with
    | nil => exact absurd rfl hne
    | cons a b => simp
  have hRchars : ∀ c ∈ joinLines (chunks.map pWrap), c ≠ '#' ∧ c ≠ '*' ∧ c ≠ '|' := by
    intro c hc
    rcases mem_joinLines hc with h | ⟨w, hw, hcw⟩
    · subst h
      exact ⟨by decide, by decide, by decide⟩
    · rcases List.mem_map.mp hw with ⟨p, hp, hwp⟩
      subst hwp
      have h2 := pWrap_chars ((hch p hp).2) c hcw
      exact ⟨h2.1, h2.2.1, h2.2.2.1⟩
  have hRsplit : splitLines (joinLines (chunks.map pWrap)) = chunks.map pWrap :=
    splitLines_joinLines hmapne (fun w hw c hc => (hwprops w hw).2 c hc)
  have hRnum : ∀ line ∈ splitLines (joinLines (chunks.map pWrap)),
      ∀ c r, line = c :: r → c.isDigit = false := by
    intro line hl c r hline
    rw [hRsplit] at hl
    rcases List.mem_map.mp hl with ⟨p, hp, hwp⟩
    rw [hline, show pWrap p = '<' :: 'p' :: '>' :: (p ++ "</p>".data) from rfl] at hwp
    injection hwp with hh _
    rw [← hh]
    decide
  have hRnn : noNN (joinLines (chunks.map pWrap)) = true :=
    noNN_joinLines hwprops
  have hRsafe : safeLt (joinLines (chunks.map pWrap)) = true := by
    refine safeLt_joinLines (fun w hw => ?_)
    rcases List.mem_map.mp hw with ⟨p, hp, hwp⟩
    subst hwp
    exact pWrap_safeLt ((hch p hp).2)
  have hRlast : (joinLines (chunks.map pWrap)).getLast? = some '>' := by
    refine joinLines_getLast_all hmapne (fun w hw => ?_)
    rcases List.mem_map.mp hw with ⟨p, hp, hwp⟩
    subst hwp
    exact pWrap_getLast
  obtain ⟨p1, rest, hcform⟩ : ∃ p1 rest, chunks = p1 :: rest := by
    cases chunks with
    | nil => exact absurd rfl hne
    | cons a b => exact ⟨a, b, rfl⟩
  subst hcform
  obtain ⟨t, ht⟩ : ∃ t, joinLines ((p1 :: rest).map pWrap) = '<' :: 'p' :: t := by
    rw [List.map_cons, show pWrap p1 = '<' :: 'p' :: '>' :: (p1 ++ "</p>".data) from rfl]
    exact joinLines_cons_cons
  have h2 : renderMarkdown (String.mk (joinLines ((p1 :: rest).map pWrap)))
      = String.mk ("<p>".data ++ joinLines ((p1 :: rest).map pWrap) ++ "</p>".data) := by
    rw [renderMarkdown]
    show String.mk (paragraphsPass (tablePass (numberedPass (ulWrapPass (bulletPass
      (italicPass (boldPass (headersPass (joinLines ((p1 :: rest).map pWrap)))))))))) = _
    rw [headersPass_id (fun c hc => (hRchars c hc).1),
      boldPass_id (fun c hc => (hRchars c hc).2.1),
      italicPass_id (fun c hc => (hRchars c hc).2.1),
      bulletPass_id (fun c hc => (hRchars c hc).2.1),
      ulWrapPass_id (safeLt_noLtL hRsafe),
      numberedPass_id hRnum,
      tablePass_id (fun c hc => (hRchars c hc).2.2),
      paragraphsPass, splitOnNN_no_nn hRnn, List.map_cons, List.map_nil,
      show joinLines [paraChunk (joinLines ((p1 :: rest).map pWrap))]
        = paraChunk (joinLines ((p1 :: rest).map pWrap)) from rfl,
      ht, paraChunk_pTag (by rw [← ht]; exact hRlast), pWrap, ← ht]
  refine ⟨h1, ?_, ?_⟩
  · rw [h1]
    exact h2
  · rw [h1, h2]
    intro heq
    injection heq with hd
    have hlen := congrArg List.length hd
    rw [List.length_append, List.length_append,
      show ("<p>".data : List Char).length = 3 from rfl,
      show ("</p>".data : List Char).length = 4 from rfl] at hlen
    omega

/-- C3 counterexample: one already markup-free paragraph, rendered
twice, is not what a single render produces — the second pass wraps
the `<p>…</p>` block again. -/
theorem C3_counterexample :
    renderMarkdown (renderMarkdown (String.mk "hello".data))
      ≠ renderMarkdown (String.mk "hello".data) := by
  decide

/-- C3 witness: the two-paragraph input `hello\n\nworld` instantiates
the amended theorem. -/
theorem C3_witness :
    renderMarkdown (renderMarkdown (String.mk (plainParas ["hello".data, "world".data])))
      ≠ renderMarkdown (String.mk (plainParas ["hello".data, "world".data])) :=
  (C3_render_not_idempotent_on_plain_paragraphs ["hello".data, "world".data]
    (by decide) (by decide)).2.2


/-! ### Tokenizer and fold over mixed literal/marker token lists -/

theorem tokenize_append_lits {l rest : List Char} (h : ∀ c ∈ l, c ≠ '[') :
    tokenize (l ++ rest) = l.map CTok.lit ++ tokenize rest := by
  induction l with
  | nil => simp
  | cons c ls ih =>
    rw [List.cons_append, tokenize_cons_lit (matchMarker_none_of_head (h c (by simp))),
      ih (fun x hx => h x (List.mem_cons_of_mem c hx)), List.map_cons, List.cons_append]

theorem tokenize_all_lits {l : List Char} (h : ∀ c ∈ l, c ≠ '[') :
    tokenize l = l.map CTok.lit := by
  have h2 : tokenize (l ++ []) = l.map CTok.lit ++ tokenize [] :=
    tokenize_append_lits h
  rw [List.append_nil] at h2
  rw [h2, tokenize_nil, List.append_nil]

theorem tokenize_src1 {rest : List Char} :
    tokenize ('[' :: '[' :: 'S' :: 'r' :: 'c' :: ':' :: '1' :: ']' :: ']' :: rest)
      = CTok.marker (String.mk ['1']) :: tokenize rest :=
  tokenize_cons_marker rfl

theorem processToks_lits_append (key : String) (cs : List Char) (ts : List CTok) :
    ∀ st : CiteState,
      processToks key (cs.map CTok.lit ++ ts) st
        = ((processToks key ts st).1, String.mk cs ++ (processToks key ts st).2) := by
  induction cs with
  | nil =>
    intro st
    rfl
  | cons c rest ih =>
    intro st
    rw [List.map_cons, List.cons_append]
    show ((processToks key (rest.map CTok.lit ++ ts) st).1,
        String.mk [c] ++ (processToks key (rest.map CTok.lit ++ ts) st).2)
      = ((processToks key ts st).1, String.mk (c :: rest) ++ (processToks key ts st).2)
    rw [ih st]
    rfl

/-- Numbering state after the first `src_1` marker. -/
def citeSt1 : CiteState := { citationNumber := 2, citationMap := [("src_1", 1)] }

theorem processToks_marker1 (key : String) (ts : List CTok) :
    processToks key (CTok.marker (String.mk ['1']) :: ts) initCiteState
      = ((processToks key ts citeSt1).1,
          spanFor "src_1" key 1 ++ (processToks key ts citeSt1).2) := by
  show (let p1 := renderTok key initCiteState (CTok.marker (String.mk ['1']))
    let p2 := processToks key ts p1.1
    (p2.1, p1.2 ++ p2.2)) = _
  rw [show renderTok key initCiteState (CTok.marker (String.mk ['1']))
      = (citeSt1, spanFor "src_1" key 1) from rfl]

/-! ### Bold close on a star-free middle, and the paragraph wrap of a
non-whitelisted tag -/

theorem findBoldClose_append {mid tail : List Char} (hne : mid ≠ [])
    (h : ∀ c ∈ mid, c ≠ '*' ∧ c ≠ '\n') :
    findBoldClose (mid ++ '*' :: '*' :: tail) = some (mid, tail) := by
  induction mid with
  | nil => exact absurd rfl hne
  | cons c ms ih =>
    rw [List.cons_append, findBoldClose, if_neg (h c (by simp)).2]
    cases ms with
    | nil =>
      rw [List.nil_append,
        show afterTwoStars ('*' :: '*' :: tail) = some tail from rfl]
    | cons d ds =>
      rw [List.cons_append, afterTwoStars_none (h d (by simp)).1]
      dsimp only
      rw [← List.cons_append,
        ih (by simp) (fun x hx => h x (List.mem_cons_of_mem c hx))]

theorem paraChunk_tag {e : Char} {t : List Char}
    (he : e ≠ 'h' ∧ e ≠ 'u' ∧ e ≠ 'o' ∧ e ≠ 'l' ∧ e ≠ 't')
    (hlast : ('<' :: e :: t).getLast? = some '>') :
    paraChunk ('<' :: e :: t) = pWrap ('<' :: e :: t) := by
  have htrim : jsTrim ('<' :: e :: t) = '<' :: e :: t :=
    jsTrim_id_of_ends rfl (by decide) hlast (by decide)
  show (if jsTrim ('<' :: e :: t) = [] then []
    else if startsWithL "<h".data (jsTrim ('<' :: e :: t)) ||
        startsWithL "<ul".data (jsTrim ('<' :: e :: t)) ||
        startsWithL "<ol".data (jsTrim ('<' :: e :: t)) ||
        startsWithL "<li".data (jsTrim ('<' :: e :: t)) ||
        startsWithL "<table".data (jsTrim ('<' :: e :: t)) then jsTrim ('<' :: e :: t)
    else "<p>".data ++ jsTrim ('<' :: e :: t) ++ "</p>".data) = pWrap ('<' :: e :: t)
  rw [htrim, if_neg (by simp)]
  rw [show ("<h".data : List Char) = '<' :: 'h' :: [] from rfl,
    show ("<ul".data : List Char) = '<' :: 'u' :: ['l'] from rfl,
    show ("<ol".data : List Char) = '<' :: 'o' :: ['l'] from rfl,
    show ("<li".data : List Char) = '<' :: 'l' :: ['i'] from rfl,
    show ("<table".data : List Char) = '<' :: 't' :: ['a', 'b', 'l', 'e'] from rfl,
    startsWithL_second_false (fun h2 => he.1 h2.symm),
    startsWithL_second_false (fun h2 => he.2.1 h2.symm),
    startsWithL_second_false (fun h2 => he.2.2.1 h2.symm),
    startsWithL_second_false (fun h2 => he.2.2.2.1 h2.symm),
    startsWithL_second_false (fun h2 => he.2.2.2.2 h2.symm)]
  rfl

/-! ### The emitted span, split around the section key -/

/-- Everything of the `src_1` span before the section key. -/
def spanPre : List Char :=
  "<span class=\"citation\" data-source-id=\"src_1\" data-section=\"".data

/-- Everything of the `src_1` span after the section key. -/
def spanPost : List Char := "\" data-num=\"1\">1</span>".data

theorem spanPre_facts :
    ∀ c ∈ spanPre, c ≠ '#' ∧ c ≠ '*' ∧ c ≠ '\n' ∧ c ≠ '|' := by decide

theorem spanPost_facts :
    ∀ c ∈ spanPost, c ≠ '#' ∧ c ≠ '*' ∧ c ≠ '\n' ∧ c ≠ '|' := by decide

theorem spanPre_safeLt : safeLt spanPre = true := by decide

theorem spanPost_safeLt : safeLt spanPost = true := by decide

theorem spanFor_src1_data (key : String) :
    (spanFor "src_1" key 1).data = spanPre ++ (key.data ++ spanPost) := by
  show (((((((("<span class=\"citation\" data-source-id=\"".data
      ++ "src_1".data) ++ "\" data-section=\"".data) ++ key.data)
      ++ "\" data-num=\"".data) ++ ['1']) ++ "\">".data) ++ ['1'])
      ++ "</span>".data) = spanPre ++ (key.data ++ spanPost)
  simp only [List.append_assoc]
  rfl


/-- C2: a citation placeholder is never altered by the emphasis,
heading, or list rules.  For any surrounding bold text (`a`, `b` drawn
from letters and spaces) and any letters-only section key, rendering
`**a[[Src:1]]b**` produces exactly `<p><strong>` ++ a ++ the untouched
`src_1`/number-1 span ++ b ++ `</strong></p>`: the span's attributes
survive the bold rule that rewrites around it. -/
theorem C2_placeholder_survives_renderer (a b : List Char) (key : String)
    (sources : List (String × Source))
    (ha : ∀ c ∈ a, c ∈ plainChars) (hb : ∀ c ∈ b, c ∈ plainChars)
    (hkey : ∀ c ∈ key.data, c ∈ alphaChars) :
    (renderMarkdown (processCitationTags
        (String.mk ('*' :: '*' :: (a ++ '[' :: '[' :: 'S' :: 'r' :: 'c' :: ':' :: '1'
          :: ']' :: ']' :: (b ++ ['*', '*'])))) sources key)).data
      = "<p><strong>".data ++ a ++ (spanFor "src_1" key 1).data ++ b
        ++ "</strong></p>".data := by
  have hplainf : ∀ (x : List Char), (∀ c ∈ x, c ∈ plainChars) →
      ∀ c ∈ x, c ≠ '#' ∧ c ≠ '*' ∧ c ≠ '\n' ∧ c ≠ '|' ∧ c ≠ '<' ∧ c ≠ '[' := by
    intro x hx c hc
    have hpc := plainChars_facts c (hx c hc)
    exact ⟨hpc.1, hpc.2.1, hpc.2.2.1, hpc.2.2.2.1, hpc.2.2.2.2.1, hpc.2.2.2.2.2.1⟩
  have hkeyf : ∀ c ∈ key.data, c ≠ '#' ∧ c ≠ '*' ∧ c ≠ '\n' ∧ c ≠ '|' ∧ c ≠ '<' := by
    intro c hc
    have hpc := plainChars_facts c (alphaChars_sub_plainChars c (hkey c hc))
    exact ⟨hpc.1, hpc.2.1, hpc.2.2.1, hpc.2.2.2.1, hpc.2.2.2.2.1⟩
  have hspanf : ∀ c ∈ (spanFor "src_1" key 1).data,
      c ≠ '#' ∧ c ≠ '*' ∧ c ≠ '\n' ∧ c ≠ '|' := by
    intro c hc
    rw [spanFor_src1_data] at hc
    rcases List.mem_append.mp hc with h1 | h1
    · exact spanPre_facts c h1
    · rcases List.mem_append.mp h1 with h2 | h2
      · have h3 := hkeyf c h2
        exact ⟨h3.1, h3.2.1, h3.2.2.1, h3.2.2.2.1⟩
      · exact spanPost_facts c h2
  have hmidf : ∀ c ∈ a ++ ((spanFor "src_1" key 1).data ++ b),
      c ≠ '#' ∧ c ≠ '*' ∧ c ≠ '\n' ∧ c ≠ '|' := by
    intro c hc
    rcases List.mem_append.mp hc with h1 | h1
    · have h2 := hplainf a ha c h1
      exact ⟨h2.1, h2.2.1, h2.2.2.1, h2.2.2.2.1⟩
    · rcases List.mem_append.mp h1 with h2 | h2
      · exact hspanf c h2
      · have h3 := hplainf b hb c h2
        exact ⟨h3.1, h3.2.1, h3.2.2.1, h3.2.2.2.1⟩
  have hmidne : a ++ ((spanFor "src_1" key 1).data ++ b) ≠ [] := by
    intro h0
    rcases List.append_eq_nil.mp h0 with ⟨_, h2⟩
    rcases List.append_eq_nil.mp h2 with ⟨h3, _⟩
    rw [spanFor_src1_data] at h3
    rcases List.append_eq_nil.mp h3 with ⟨h4, _⟩
    exact absurd h4 (by decide)
  have hA : processCitationTags
      (String.mk ('*' :: '*' :: (a ++ '[' :: '[' :: 'S' :: 'r' :: 'c' :: ':' :: '1'
        :: ']' :: ']' :: (b ++ ['*', '*'])))) sources key
      = String.mk ('*' :: '*' :: a)
        ++ (spanFor "src_1" key 1 ++ String.mk (b ++ ['*', '*'])) := by
    show (processToks key (tokenize (('*' :: '*' :: a)
      ++ ('[' :: '[' :: 'S' :: 'r' :: 'c' :: ':' :: '1' :: ']' :: ']'
        :: (b ++ ['*', '*'])))) initCiteState).2 = _
    rw [tokenize_append_lits (by
        intro c hc
        cases hc with
        | head => decide
        | tail _ h1 =>
          cases h1 with
          | head => decide
          | tail _ h2 => exact (hplainf a ha c h2).2.2.2.2.2),
      tokenize_src1,
      tokenize_all_lits (by
        intro c hc
        rcases List.mem_append.mp hc with h1 | h1
        · exact (hplainf b hb c h1).2.2.2.2.2
        · have h2 : c = '*' := by simpa using h1
          subst h2
          decide),
      processToks_lits_append, processToks_marker1, processToks_map_lit]
  have hdata : (String.mk ('*' :: '*' :: a)
      ++ (spanFor "src_1" key 1 ++ String.mk (b ++ ['*', '*']))).data
      = '*' :: '*' :: ((a ++ ((spanFor "src_1" key 1).data ++ b)) ++ '*' :: '*' :: []) := by
    show ('*' :: '*' :: a) ++ ((spanFor "src_1" key 1).data ++ (b ++ ['*', '*'])) = _
    simp only [List.cons_append, List.append_assoc]
  rw [hA, renderMarkdown, hdata]
  have hDhash : ∀ c ∈ '*' :: '*' :: ((a ++ ((spanFor "src_1" key 1).data ++ b))
      ++ '*' :: '*' :: []), c ≠ '#' := by
    intro c hc
    cases hc with
    | head => decide
    | tail _ h1 =>
      cases h1 with
      | head => decide
      | tail _ h2 =>
        rcases List.mem_append.mp h2 with h3 | h3
        · exact (hmidf c h3).1
        · have h4 : c = '*' := by simpa using h3
          subst h4
          decide
  rw [headersPass_id hDhash]
  have h2s : afterTwoStars ('*' :: '*' :: ((a ++ ((spanFor "src_1" key 1).data ++ b))
      ++ '*' :: '*' :: []))
      = some ((a ++ ((spanFor "src_1" key 1).data ++ b)) ++ '*' :: '*' :: []) := rfl
  have hcl : findBoldClose ((a ++ ((spanFor "src_1" key 1).data ++ b)) ++ '*' :: '*' :: [])
      = some (a ++ ((spanFor "src_1" key 1).data ++ b), []) :=
    findBoldClose_append hmidne (fun c hc => ⟨(hmidf c hc).2.1, (hmidf c hc).2.2.1⟩)
  rw [boldPass_open_close h2s hcl, boldPass_nil, List.append_nil]
  have hBf : ∀ c ∈ ("<strong>".data ++ (a ++ ((spanFor "src_1" key 1).data ++ b)))
      ++ "</strong>".data, c ≠ '*' ∧ c ≠ '|' ∧ c ≠ '\n' := by
    intro c hc
    rcases List.mem_append.mp hc with h1 | h1
    · rcases List.mem_append.mp h1 with h2 | h2
      · have h3 : c = '<' ∨ c = 's' ∨ c = 't' ∨ c = 'r' ∨ c = 'o' ∨ c = 'n' ∨
            c = 'g' ∨ c = '>' := by
          rw [show ("<strong>".data : List Char)
            = ['<', 's', 't', 'r', 'o', 'n', 'g', '>'] from rfl] at h2
          simpa using h2
        rcases h3 with h4 | h4 | h4 | h4 | h4 | h4 | h4 | h4 <;> subst h4 <;>
          exact ⟨by decide, by decide, by decide⟩
      · have h3 := hmidf c h2
        exact ⟨h3.2.1, h3.2.2.2, h3.2.2.1⟩
    · have h3 : c = '<' ∨ c = '/' ∨ c = 's' ∨ c = 't' ∨ c = 'r' ∨ c = 'o' ∨
          c = 'n' ∨ c = 'g' ∨ c = '>' := by
        rw [show ("</strong>".data : List Char)
          = ['<', '/', 's', 't', 'r', 'o', 'n', 'g', '>'] from rfl] at h1
        simpa using h1
      rcases h3 with h4 | h4 | h4 | h4 | h4 | h4 | h4 | h4 | h4 <;> subst h4 <;>
        exact ⟨by decide, by decide, by decide⟩
  have hBsafe : safeLt (("<strong>".data ++ (a ++ ((spanFor "src_1" key 1).data ++ b)))
      ++ "</strong>".data) = true := by
    refine safeLt_append (safeLt_append (by decide) ?_) (by decide)
    refine safeLt_append (safeLt_of_no_lt (fun c hc => (hplainf a ha c hc).2.2.2.2.1) ) ?_
    refine safeLt_append ?_ (safeLt_of_no_lt (fun c hc => (hplainf b hb c hc).2.2.2.2.1))
    rw [spanFor_src1_data]
    exact safeLt_append spanPre_safeLt (safeLt_append
      (safeLt_of_no_lt (fun c hc => (hkeyf c hc).2.2.2.2)) spanPost_safeLt)
  have hsplB : splitLines (("<strong>".data ++ (a ++ ((spanFor "src_1" key 1).data ++ b)))
      ++ "</strong>".data)
      = [("<strong>".data ++ (a ++ ((spanFor "src_1" key 1).data ++ b)))
          ++ "</strong>".data] :=
    splitLines_no_newline (fun c hc => (hBf c hc).2.2)
  have hnum : ∀ line ∈ splitLines (("<strong>".data
      ++ (a ++ ((spanFor "src_1" key 1).data ++ b))) ++ "</strong>".data),
      ∀ c r, line = c :: r → c.isDigit = false := by
    rw [hsplB]
    intro line hl c r hline
    have hlB : line = ("<strong>".data ++ (a ++ ((spanFor "src_1" key 1).data ++ b)))
        ++ "</strong>".data := by simpa using hl
    rw [hlB, show (("<strong>".data ++ (a ++ ((spanFor "src_1" key 1).data ++ b)))
        ++ "</strong>".data)
      = '<' :: 's' :: (("trong>".data ++ (a ++ ((spanFor "src_1" key 1).data ++ b)))
        ++ "</strong>".data) from rfl] at hline
    injection hline with hh _
    rw [← hh]
    decide
  have hlastB : ((("<strong>".data ++ (a ++ ((spanFor "src_1" key 1).data ++ b)))
      ++ "</strong>".data)).getLast? = some '>' := by
    rw [List.getLast?_append]
    rfl
  rw [italicPass_id (fun c hc => (hBf c hc).1), bulletPass_id (fun c hc => (hBf c hc).1),
    ulWrapPass_id (safeLt_noLtL hBsafe), numberedPass_id hnum,
    tablePass_id (fun c hc => (hBf c hc).2.1), paragraphsPass,
    splitOnNN_no_nn (noNN_of_no_newline (fun c hc => (hBf c hc).2.2)), List.map_cons,
    List.map_nil,
    show joinLines [paraChunk (("<strong>".data
        ++ (a ++ ((spanFor "src_1" key 1).data ++ b))) ++ "</strong>".data)]
      = paraChunk (("<strong>".data ++ (a ++ ((spanFor "src_1" key 1).data ++ b)))
        ++ "</strong>".data) from rfl,
    show (("<strong>".data ++ (a ++ ((spanFor "src_1" key 1).data ++ b)))
        ++ "</strong>".data)
      = '<' :: 's' :: (("trong>".data ++ (a ++ ((spanFor "src_1" key 1).data ++ b)))
        ++ "</strong>".data) from rfl,
    paraChunk_tag (by
      refine ⟨by decide, by decide, by decide, by decide, by decide⟩) (by
      rw [show ('<' :: 's' :: (("trong>".data
          ++ (a ++ ((spanFor "src_1" key 1).data ++ b))) ++ "</strong>".data))
        = (("<strong>".data ++ (a ++ ((spanFor "src_1" key 1).data ++ b)))
          ++ "</strong>".data) from rfl]
      exact hlastB),
    pWrap]
  simp only [List.cons_append, List.append_assoc]
  rfl

/-- C2 witness: the spec's own example `**bold [[Src:1]] text**` in
section `overview`. -/
theorem C2_witness :
    (renderMarkdown (processCitationTags
        (String.mk ('*' :: '*' :: ("bold ".data ++ '[' :: '[' :: 'S' :: 'r' :: 'c'
          :: ':' :: '1' :: ']' :: ']' :: (" text".data ++ ['*', '*'])))) [] "overview")).data
      = "<p><strong>".data ++ "bold ".data ++ (spanFor "src_1" "overview" 1).data
        ++ " text".data ++ "</strong></p>".data :=
  C2_placeholder_survives_renderer "bold ".data " text".data "overview" []
    (by decide) (by decide) (by decide)

end CitationUI
